/-
Verification of the TreeView incremental synchronization engine of the
`walk` Win32 GUI toolkit (package `walk`, file `treeview.go`, plus the
event-dispatch channel of `treecheckableitemevent.go`).

Shallow embedding conventions:
* Model items are identified by `Nat` (Go `TreeItem` identity is reference
  equality; each distinct item gets a distinct id).
* The abstract tree model (`TreeModel` interface: `RootCount/RootAt`,
  `ChildCount/ChildAt`, `Parent`, the optional checkable capability and
  `LazyPopulation`) is a record of functions, `TreeModelSig`.  The mutable
  model check flags live in the engine-visible state (`TvState.checked`),
  because `SetChecked` on a checkable item mutates the model.
* Native `HTREEITEM` handles are `Nat`s handed out by a fresh counter
  (`TvState.nextHandle`); the native control is modelled by the per-handle
  check-state image (`TvState.nativeChecked`, `true` = state image 2).
  Native `SendMessage` calls (`TVM_INSERTITEM`, `TVM_DELETEITEM`,
  `TVM_SETITEM`, `TVM_SELECTITEM`) are modelled as succeeding; per the
  repository's error design their failure indicates an environment error.
* Go maps (`item2Info`, `handle2Item`, `child2Handle`) are association
  lists with set/erase semantics (`aset`/`aerase`).  Go's nondeterministic
  map iteration in `removeDescendants` is refined to list order.
* Fallible operations return `TvState × Out α`; `Out.err` models a Go
  `error` return, `Out.crash` models a Go runtime panic (nil-pointer
  dereference or failed type assertion), `Out.nofuel` is the artifact of
  bounding recursion depth by an explicit fuel parameter (the Go code
  recurses on the model tree, which it assumes to be finite and acyclic).
-/
import Mathlib

set_option maxHeartbeats 1000000

namespace Walk

/-- Outcome of an engine operation: normal result, Go `error` return,
Go runtime panic, or fuel exhaustion (embedding artifact). -/
inductive Out (α : Type) : Type where
  | ok : α → Out α
  | err : String → Out α
  | crash : Out α
  | nofuel : Out α
deriving DecidableEq, Repr

/-- First-match association-list lookup (Go map read). -/
def alookup {α : Type} : List (Nat × α) → Nat → Option α
  | [], _ => none
  | (k, v) :: rest, key => if k = key then some v else alookup rest key

/-- Remove every entry with the given key (Go map `delete`). -/
def aerase {α : Type} (l : List (Nat × α)) (key : Nat) : List (Nat × α) :=
  l.filter (fun p => p.1 ≠ key)

/-- Go map write `m[k] = v`: overwrite or add. -/
def aset {α : Type} (l : List (Nat × α)) (key : Nat) (v : α) : List (Nat × α) :=
  (key, v) :: aerase l key

/-- `treeViewItemInfo`: native handle plus the realized-children map
`child2Handle` (realized child item → its native handle). -/
structure ItemInfo where
  handle : Nat
  child2Handle : List (Nat × Nat)
deriving DecidableEq, Repr

/-- The static part of the attached `TreeModel`: tree navigation, the
checkable capability, and the `LazyPopulation` declaration. -/
structure TreeModelSig where
  roots : List Nat
  children : Nat → List Nat
  parent : Nat → Option Nat
  checkable : Nat → Bool
  lazyPopulation : Bool

/-- The engine-visible mutable state: the two registries of the `TreeView`
(`item2Info`, `handle2Item`), the native control's per-handle check-state
images, the fresh-handle counter, the current item, the `lazyPopulation`
flag read from the model at attach time, the model's mutable check flags,
and the log of items passed to `itemCheckedPublisher.Publish`. -/
structure TvState where
  item2Info : List (Nat × ItemInfo)
  handle2Item : List (Nat × Nat)
  nativeChecked : List (Nat × Bool)
  nextHandle : Nat
  currItem : Option Nat
  lazyPopulation : Bool
  checked : Nat → Bool
  checkedEvents : List Nat

/-- Win32 `TVI_ROOT` pseudo-handle (`^HTREEITEM(0x10000 - 1) - 1`). -/
def TVI_ROOT : Nat := 4294901760

/-- Win32 `TVI_FIRST` pseudo-handle. -/
def TVI_FIRST : Nat := 4294901761

/- ------------------------------------------------------------------
Event dispatch layer (`treecheckableitemevent.go`), generic in the
handler type `H` (handlers are opaque values; their invocation is
recorded in the list returned by `eventPublish`). -/

/-- `treeCheckableItemEventHandlerInfo`: a slot holding an optional
handler (`none` = Go nil, a vacated slot) and the once flag. -/
structure HandlerSlot (H : Type) where
  handler : Option H
  once : Bool

/-- `TreeCheckableItemEvent`: the ordered slot sequence. -/
structure TCEvent (H : Type) where
  handlers : List (HandlerSlot H)

/-- Helper for `Attach`: scan for the first vacated slot. -/
def attachAux {H : Type} (h : H) : List (HandlerSlot H) → Nat → List (HandlerSlot H) × Nat
  | [], idx => ([{ handler := some h, once := false }], idx)
  | slot :: rest, idx =>
    match slot.handler with
    | none => ({ handler := some h, once := false } :: rest, idx)
    | some g =>
      let (tail, i) := attachAux h rest (idx + 1)
      ({ handler := some g, once := slot.once } :: tail, i)

/-- `TreeCheckableItemEvent.Attach`: store the handler in the first slot
whose handler is nil and return that index; append otherwise. -/
def eventAttach {H : Type} (e : TCEvent H) (h : H) : TCEvent H × Nat :=
  let (l, i) := attachAux h e.handlers 0
  (⟨l⟩, i)

/-- `TreeCheckableItemEvent.Detach`: set the slot's handler to nil.
An out-of-range handle panics in Go (index out of range). -/
def eventDetach {H : Type} (e : TCEvent H) (i : Nat) : TCEvent H × Out Unit :=
  if h : i < e.handlers.length then
    (⟨e.handlers.set i { e.handlers.get ⟨i, h⟩ with handler := none }⟩, Out.ok ())
  else (e, Out.crash)

/-- `TreeCheckableItemEvent.Once`: attach, then set the once flag. -/
def eventOnce {H : Type} (e : TCEvent H) (h : H) : TCEvent H :=
  let (e1, i) := eventAttach e h
  match e1.handlers.get? i with
  | some slot => ⟨e1.handlers.set i { slot with once := true }⟩
  | none => e1

/-- Helper for `Publish`: walk the slots in order, collect the invoked
handlers, and detach any once-flagged slot right after its invocation. -/
def publishAux {H : Type} : List (HandlerSlot H) → List (HandlerSlot H) × List H
  | [] => ([], [])
  | slot :: rest =>
    match slot.handler with
    | none =>
      let (tail, inv) := publishAux rest
      (slot :: tail, inv)
    | some h =>
      let slot2 := if slot.once then { slot with handler := none } else slot
      let (tail, inv) := publishAux rest
      (slot2 :: tail, h :: inv)

/-- `TreeCheckableItemEventPublisher.Publish`: returns the updated event
and the handlers invoked, in slot order. -/
def eventPublish {H : Type} (e : TCEvent H) : TCEvent H × List H :=
  let (l, inv) := publishAux e.handlers
  (⟨l⟩, inv)

/- ------------------------------------------------------------------
Reconciliation engine (`treeview.go`). -/

/-- The model-side `SetChecked` reached through the ad hoc capability
query `item.(interface{ SetChecked(bool) })`: a no-op for items without
the checkable capability. -/
def setModelChecked (m : TreeModelSig) (s : TvState) (item : Nat) (b : Bool) : TvState :=
  if m.checkable item then
    { s with checked := fun j => if j = item then b else s.checked j }
  else s

/-- `TreeView.Checked` for a non-nil item: reads the native state image
through `TVM_GETITEMSTATE`; unrealized items report `false`
(`tv.Checked(nil)` is likewise `false`; nil never arises here since
model items are concrete ids). -/
def tvChecked (s : TvState) (item : Nat) : Bool :=
  match alookup s.item2Info item with
  | none => false
  | some info => (alookup s.nativeChecked info.handle).getD false

/-- `TreeView.SetChecked` for a non-nil item: `invalid item` when the
item has no registry entry, otherwise write the native state image
(the `TVM_SETITEM` and redraw calls are modelled as succeeding). -/
def tvSetChecked (s : TvState) (item : Nat) (b : Bool) : TvState × Out Unit :=
  match alookup s.item2Info item with
  | none => (s, Out.err "invalid item")
  | some info =>
    ({ s with nativeChecked := aset s.nativeChecked info.handle b }, Out.ok ())

/-- Append an item to the `itemCheckedPublisher.Publish` log. -/
def publishChecked (s : TvState) (item : Nat) : TvState :=
  { s with checkedEvents := s.checkedEvents ++ [item] }

/-- Write `child ↦ h` into the `child2Handle` map of the parent's
registry entry (`info.child2Handle[child] = handle` through the stored
pointer).  The parent is always registered at the call sites that reach
this (the nil-map panic branch is modelled at the caller). -/
def addChildHandle (s : TvState) (parent child h : Nat) : TvState :=
  match alookup s.item2Info parent with
  | none => s
  | some info =>
    { s with
        item2Info :=
          aset s.item2Info parent
            ({ info with child2Handle := aset info.child2Handle child h }) }

mutual

/-- `TreeView.insertItemAfter`: resolve the parent handle (`invalid
parent` when the parent item is unrealized, `TVI_ROOT` for a root item),
obtain a fresh native handle from `TVM_INSERTITEM` with the initial
check-state image taken from the model's checkable capability, register
the item in both registries, and, unless population is lazy, insert the
children. -/
def insertItemAfter (m : TreeModelSig) (s : TvState) (item hAfter : Nat) :
    Nat → TvState × Out Nat
  | 0 => (s, Out.nofuel)
  | fuel + 1 =>
    let parentUnrealized : Bool :=
      match m.parent item with
      | some p => (alookup s.item2Info p).isNone
      | none => false
    if parentUnrealized then (s, Out.err "invalid parent")
    else
      let h := s.nextHandle
      let st0 : Bool := m.checkable item && s.checked item
      let s1 : TvState :=
        { s with
          nextHandle := h + 1,
          item2Info := aset s.item2Info item ({ handle := h, child2Handle := [] }),
          handle2Item := aset s.handle2Item h item,
          nativeChecked := aset s.nativeChecked h st0 }
      if s.lazyPopulation then (s1, Out.ok h)
      else
        match insertChildrenAux m s1 item true ((m.children item).reverse) fuel with
        | (s2, Out.ok _) => (s2, Out.ok h)
        | (s2, Out.err e) => (s2, Out.err e)
        | (s2, Out.crash) => (s2, Out.crash)
        | (s2, Out.nofuel) => (s2, Out.nofuel)
termination_by structural fuel => fuel

/-- The loop of `TreeView.insertChildren` over `ChildAt(i)` for
`i = ChildCount-1 .. 0` (hence the reversed child list): insert each
child first, then record it in the parent's `child2Handle`.
`parentRealized` records whether `tv.item2Info[parent]` was non-nil when
the loop started; writing through a nil pointer panics. -/
def insertChildrenAux (m : TreeModelSig) (s : TvState) (parent : Nat)
    (parentRealized : Bool) : List Nat → Nat → TvState × Out Unit
  | [], _ => (s, Out.ok ())
  | _ :: _, 0 => (s, Out.nofuel)
  | child :: rest, fuel + 1 =>
    match insertItemAfter m s child TVI_FIRST fuel with
    | (s1, Out.ok h) =>
      if parentRealized then
        insertChildrenAux m (addChildHandle s1 parent child h) parent parentRealized rest fuel
      else (s1, Out.crash)
    | (s1, Out.err e) => (s1, Out.err e)
    | (s1, Out.crash) => (s1, Out.crash)
    | (s1, Out.nofuel) => (s1, Out.nofuel)
termination_by structural cs fuel => fuel

end

/-- `TreeView.insertItem`: insert at the first position. -/
def insertItem (m : TreeModelSig) (s : TvState) (item fuel : Nat) : TvState × Out Nat :=
  insertItemAfter m s item TVI_FIRST fuel

/-- `TreeView.insertChildren`. -/
def insertChildren (m : TreeModelSig) (s : TvState) (parent fuel : Nat) :
    TvState × Out Unit :=
  insertChildrenAux m s parent ((alookup s.item2Info parent).isSome)
    ((m.children parent).reverse) fuel

/-- `TreeView.clearItems`: delete all native items (modelled as
succeeding) and replace both registries with fresh empty maps. -/
def clearItems (s : TvState) : TvState × Out Unit :=
  ({ s with item2Info := [], handle2Item := [] }, Out.ok ())

/-- The loop of `TreeView.insertRoots` over `RootAt(i)` for
`i = RootCount-1 .. 0` (hence the reversed root list). -/
def insertRootsAux (m : TreeModelSig) (s : TvState) : List Nat → Nat → TvState × Out Unit
  | [], _ => (s, Out.ok ())
  | r :: rest, fuel =>
    match insertItem m s r fuel with
    | (s1, Out.ok _) => insertRootsAux m s1 rest fuel
    | (s1, Out.err e) => (s1, Out.err e)
    | (s1, Out.crash) => (s1, Out.crash)
    | (s1, Out.nofuel) => (s1, Out.nofuel)

/-- `TreeView.resetItems` with a model attached: clear, then re-insert
the roots (the `SetSuspended` redraw bracket has no model-visible
effect). -/
def resetItems (m : TreeModelSig) (s : TvState) (fuel : Nat) : TvState × Out Unit :=
  match clearItems s with
  | (s1, Out.ok _) => insertRootsAux m s1 m.roots.reverse fuel
  | (s1, o) => (s1, match o with
    | Out.ok _ => Out.ok ()
    | Out.err e => Out.err e
    | Out.crash => Out.crash
    | Out.nofuel => Out.nofuel)

mutual

/-- `TreeView.removeItem`: remove realized descendants first, then
delete the native item, unlink from the parent's `child2Handle`
(`tv.item2Info[item.Parent()]`, skipped when absent or the parent is
nil), and delete the entries of both registries.  When the item has no
registry entry, the preceding `removeDescendants` call dereferences the
nil `*treeViewItemInfo` and panics. -/
def removeItem (m : TreeModelSig) (s : TvState) (item : Nat) : Nat → TvState × Out Unit
  | 0 => (s, Out.nofuel)
  | fuel + 1 =>
    match alookup s.item2Info item with
    | none => (s, Out.crash)
    | some info0 =>
      match removeSeq m s (info0.child2Handle.map Prod.fst) fuel with
      | (s1, Out.ok _) =>
        match alookup s1.item2Info item with
        | none => (s1, Out.err "invalid item")
        | some info =>
          let s2 : TvState :=
            match m.parent item with
            | none => s1
            | some p =>
              match alookup s1.item2Info p with
              | none => s1
              | some pinfo =>
                { s1 with
                    item2Info :=
                      aset s1.item2Info p
                        ({ pinfo with child2Handle := aerase pinfo.child2Handle item }) }
          ({ s2 with
              item2Info := aerase s2.item2Info item
              handle2Item := aerase s2.handle2Item info.handle }, Out.ok ())
      | (s1, Out.err e) => (s1, Out.err e)
      | (s1, Out.crash) => (s1, Out.crash)
      | (s1, Out.nofuel) => (s1, Out.nofuel)
termination_by structural fuel => fuel

/-- The loop of `TreeView.removeDescendants` over the keys of the
parent's `child2Handle` (a snapshot; Go map iteration order is refined
to list order). -/
def removeSeq (m : TreeModelSig) (s : TvState) : List Nat → Nat → TvState × Out Unit
  | [], _ => (s, Out.ok ())
  | _ :: _, 0 => (s, Out.nofuel)
  | it :: rest, fuel + 1 =>
    match removeItem m s it fuel with
    | (s1, Out.ok _) => removeSeq m s1 rest fuel
    | (s1, Out.err e) => (s1, Out.err e)
    | (s1, Out.crash) => (s1, Out.crash)
    | (s1, Out.nofuel) => (s1, Out.nofuel)
termination_by structural its fuel => fuel

end

/-- `TreeView.removeDescendants`: panics on an unregistered parent
(nil-pointer dereference of `tv.item2Info[parent].child2Handle`). -/
def removeDescendants (m : TreeModelSig) (s : TvState) (parent fuel : Nat) :
    TvState × Out Unit :=
  match alookup s.item2Info parent with
  | none => (s, Out.crash)
  | some info => removeSeq m s (info.child2Handle.map Prod.fst) fuel

mutual

/-- `TreeView.setChildrenChecked`: for each model child, update the
model flag through the checkable capability (regardless of realization),
then update the native state; the recursion into the grandchildren runs
only when the native update succeeded (the child is realized). -/
def setChildrenChecked (m : TreeModelSig) (s : TvState) (parent : Nat) (b : Bool) :
    Nat → TvState × Out Unit
  | 0 => (s, Out.nofuel)
  | fuel + 1 => sccAux m s (m.children parent) b fuel
termination_by structural fuel => fuel

/-- The child loop of `setChildrenChecked` (model order). -/
def sccAux (m : TreeModelSig) (s : TvState) : List Nat → Bool → Nat → TvState × Out Unit
  | [], _, _ => (s, Out.ok ())
  | _ :: _, _, 0 => (s, Out.nofuel)
  | child :: rest, b, fuel + 1 =>
    let s1 := setModelChecked m s child b
    match tvSetChecked s1 child b with
    | (s2, Out.ok _) =>
      match setChildrenChecked m s2 child b fuel with
      | (s3, Out.ok _) => sccAux m s3 rest b fuel
      | (s3, Out.err e) => (s3, Out.err e)
      | (s3, Out.crash) => (s3, Out.crash)
      | (s3, Out.nofuel) => (s3, Out.nofuel)
    | (s2, _) => sccAux m s2 rest b fuel
termination_by structural cs b fuel => fuel

end

mutual

/-- `TreeView.applyCheckStateRecursive`: re-push the model's check flag
to the native item (errors ignored) and recurse into the children that
are realized. -/
def applyCheckStateRecursive (m : TreeModelSig) (s : TvState) (item : Nat) :
    Nat → TvState × Out Unit
  | 0 => (s, Out.nofuel)
  | fuel + 1 =>
    let s1 := if m.checkable item then (tvSetChecked s item (s.checked item)).1 else s
    acsrAux m s1 (m.children item) fuel
termination_by structural fuel => fuel

/-- The child loop of `applyCheckStateRecursive`: recurse only into
children present in `item2Info`. -/
def acsrAux (m : TreeModelSig) (s : TvState) : List Nat → Nat → TvState × Out Unit
  | [], _ => (s, Out.ok ())
  | _ :: _, 0 => (s, Out.nofuel)
  | child :: rest, fuel + 1 =>
    if (alookup s.item2Info child).isSome then
      match applyCheckStateRecursive m s child fuel with
      | (s1, Out.ok _) => acsrAux m s1 rest fuel
      | (s1, Out.err e) => (s1, Out.err e)
      | (s1, Out.crash) => (s1, Out.crash)
      | (s1, Out.nofuel) => (s1, Out.nofuel)
    else acsrAux m s rest fuel
termination_by structural cs fuel => fuel

end

/-- The `hInsertAfter` scan of the `ItemInserted` handler
(`SetModel`, lines 185-195): walk `i = ChildCount-1 .. 0`; at the index
holding the inserted item take the immediate predecessor's registered
handle (nil-pointer panic when that sibling is unrealized) or
`TVI_FIRST` at index 0; the accumulator starts as the Go zero value 0.
`anchorLoopIdx s cs item n acc` processes indices `n-1, n-2, .., 0`. -/
def anchorLoopIdx (s : TvState) (cs : List Nat) (item : Nat) : Nat → Out Nat → Out Nat
  | 0, acc => acc
  | i + 1, acc =>
    if cs.getD i 0 = item then
      if i = 0 then anchorLoopIdx s cs item i (Out.ok TVI_FIRST)
      else
        match alookup s.item2Info (cs.getD (i - 1) 0) with
        | none => Out.crash
        | some info => anchorLoopIdx s cs item i (Out.ok info.handle)
    else anchorLoopIdx s cs item i acc

/-- The insertion-anchor computation of the `ItemInserted` handler; a
nil parent makes `parent.ChildCount()` a nil-interface method call. -/
def computeInsertAnchor (m : TreeModelSig) (s : TvState) (item : Nat) : Out Nat :=
  match m.parent item with
  | none => Out.crash
  | some p => anchorLoopIdx s (m.children p) item (m.children p).length (Out.ok 0)

/-- The `ItemInserted` model-event handler attached in `SetModel`:
compute the anchor, insert, and swallow an `insertItemAfter` error
(plain `return` from the callback). -/
def itemInsertedHandler (m : TreeModelSig) (s : TvState) (item fuel : Nat) :
    TvState × Out Unit :=
  match computeInsertAnchor m s item with
  | Out.ok hAfter =>
    match insertItemAfter m s item hAfter fuel with
    | (s1, Out.ok _) => (s1, Out.ok ())
    | (s1, Out.err _) => (s1, Out.ok ())
    | (s1, Out.crash) => (s1, Out.crash)
    | (s1, Out.nofuel) => (s1, Out.nofuel)
  | Out.err e => (s, Out.err e)
  | Out.crash => (s, Out.crash)
  | Out.nofuel => (s, Out.nofuel)

/-- The `TVN_ITEMEXPANDING` branch of `WndProc` for `TVE_EXPAND`: under
lazy population, when the item's realized-children map is empty, realize
the immediate children (return value discarded by the code) and re-apply
the check state recursively.  An unknown native handle leaves `item` nil
and the subsequent `tv.item2Info[item]` nil dereference panics (under
lazy population). -/
def itemExpandingHandler (m : TreeModelSig) (s : TvState) (hItem fuel : Nat) :
    TvState × Out Unit :=
  if s.lazyPopulation then
    match alookup s.handle2Item hItem with
    | none => (s, Out.crash)
    | some item =>
      match alookup s.item2Info item with
      | none => (s, Out.crash)
      | some info =>
        if info.child2Handle.length = 0 then
          match insertChildren m s item fuel with
          | (s1, Out.crash) => (s1, Out.crash)
          | (s1, Out.nofuel) => (s1, Out.nofuel)
          | (s1, _) => applyCheckStateRecursive m s1 item fuel
        else (s, Out.ok ())
  else (s, Out.ok ())

/-- The `NM_CLICK` branch of `WndProc`: when the hit test lands on an
item's state icon and the handle resolves in `handle2Item`, read the
pre-click native state, invert it, push the new state to the model item
(capability-guarded), propagate to the children via
`setChildrenChecked`, and publish one checked event — through the
unguarded type assertion `item.(TreeCheckableItem)`, which panics for a
non-checkable item. -/
def nmClickHandler (m : TreeModelSig) (s : TvState) (hHit : Nat)
    (stateIconHit : Bool) (fuel : Nat) : TvState × Out Unit :=
  if stateIconHit then
    match alookup s.handle2Item hHit with
    | none => (s, Out.ok ())
    | some item =>
      let newChecked := !(tvChecked s item)
      let s1 := setModelChecked m s item newChecked
      match setChildrenChecked m s1 item newChecked fuel with
      | (s2, Out.ok _) =>
        if m.checkable item then (publishChecked s2 item, Out.ok ())
        else (s2, Out.crash)
      | (s2, Out.err e) => (s2, Out.err e)
      | (s2, Out.crash) => (s2, Out.crash)
      | (s2, Out.nofuel) => (s2, Out.nofuel)
  else (s, Out.ok ())

/-- The ancestor-collection loop of
`TreeView.ensureItemAndAncestorsInserted`: climb while the current item
is unrealized, collecting each parent; reaching a nil parent is
`invalid item`.  Returns the collected chain in append order. -/
def collectHierarchy (m : TreeModelSig) (s : TvState) :
    Nat → List Nat → Nat → Out (List Nat)
  | _, _, 0 => Out.nofuel
  | item, acc, fuel + 1 =>
    if (alookup s.item2Info item).isSome then Out.ok acc
    else
      match m.parent item with
      | none => Out.err "invalid item"
      | some p => collectHierarchy m s p (acc ++ [p]) fuel

/-- The realization loop of `ensureItemAndAncestorsInserted`:
`insertChildren` from the last collected ancestor (the realized one)
down to the first. -/
def ensureLoop (m : TreeModelSig) (s : TvState) : List Nat → Nat → TvState × Out Unit
  | [], _ => (s, Out.ok ())
  | it :: rest, fuel =>
    match insertChildren m s it fuel with
    | (s1, Out.ok _) => ensureLoop m s1 rest fuel
    | (s1, Out.err e) => (s1, Out.err e)
    | (s1, Out.crash) => (s1, Out.crash)
    | (s1, Out.nofuel) => (s1, Out.nofuel)

/-- `TreeView.ensureItemAndAncestorsInserted` for a non-nil item. -/
def ensureItemAndAncestorsInserted (m : TreeModelSig) (s : TvState) (item fuel : Nat) :
    TvState × Out Unit :=
  match collectHierarchy m s item [] fuel with
  | Out.ok hierarchy => ensureLoop m s hierarchy.reverse fuel
  | Out.err e => (s, Out.err e)
  | Out.crash => (s, Out.crash)
  | Out.nofuel => (s, Out.nofuel)

/-- `TreeView.handleForItem`: nil or unregistered items are
`invalid item`. -/
def handleForItem (s : TvState) : Option Nat → Out Nat
  | none => Out.err "invalid item"
  | some item =>
    match alookup s.item2Info item with
    | none => Out.err "invalid item"
    | some info => Out.ok info.handle

/-- `TreeView.SetCurrentItem`: return nil immediately when the argument
is already the current item; otherwise ensure realization (non-nil
argument), resolve the handle, send `TVM_SELECTITEM` (modelled as
succeeding) and record the new current item. -/
def setCurrentItem (m : TreeModelSig) (s : TvState) (item : Option Nat) (fuel : Nat) :
    TvState × Out Unit :=
  if item = s.currItem then (s, Out.ok ())
  else
    match item with
    | some it =>
      match ensureItemAndAncestorsInserted m s it fuel with
      | (s1, Out.ok _) =>
        match handleForItem s1 item with
        | Out.ok _ => ({ s1 with currItem := item }, Out.ok ())
        | Out.err e => (s1, Out.err e)
        | Out.crash => (s1, Out.crash)
        | Out.nofuel => (s1, Out.nofuel)
      | (s1, Out.err e) => (s1, Out.err e)
      | (s1, Out.crash) => (s1, Out.crash)
      | (s1, Out.nofuel) => (s1, Out.nofuel)
    | none =>
      match handleForItem s item with
      | Out.ok _ => ({ s with currItem := item }, Out.ok ())
      | Out.err e => (s, Out.err e)
      | Out.crash => (s, Out.crash)
      | Out.nofuel => (s, Out.nofuel)

/- ------------------------------------------------------------------
Specification-side definitions used by the theorems. -/

/-- Invariant I1 (bidirectional-map consistency of the two registries):
every `item2Info` entry's handle maps back to the item in
`handle2Item`, and every `handle2Item` entry is backed by an
`item2Info` entry carrying that handle. -/
def Bidir (s : TvState) : Prop :=
  (∀ it info, alookup s.item2Info it = some info →
     alookup s.handle2Item info.handle = some it) ∧
  (∀ h it, alookup s.handle2Item h = some it →
     ∃ info, alookup s.item2Info it = some info ∧ info.handle = h)

/-- All registered handles are below the fresh-handle counter (the
native adapter's guarantee that `TVM_INSERTITEM` returns fresh
handles). -/
def FreshHandles (s : TvState) : Prop :=
  ∀ h it, alookup s.handle2Item h = some it → h < s.nextHandle

/-- The registry invariant preserved by the engine operations. -/
def RegInv (s : TvState) : Prop := Bidir s ∧ FreshHandles s

/-- The handle-free shape of the `item2Info` registry: the mapped items
in registry order, each with the keys of its realized-children map. -/
def spineOf (s : TvState) : List (Nat × List Nat) :=
  s.item2Info.map (fun p => (p.1, p.2.child2Handle.map Prod.fst))

/-- Two states realize the same item set with the same parent/child
shape (native handle values may differ). -/
def EqShape (s t : TvState) : Prop :=
  spineOf s = spineOf t ∧ s.lazyPopulation = t.lazyPopulation

mutual

/-- The items the recursion of `insertItemAfter` touches with the given
fuel: the item itself and, unless population is lazy, the recursively
inserted children (in insertion order). -/
def subtreeItems (m : TreeModelSig) (lazyP : Bool) (item : Nat) : Nat → List Nat
  | 0 => []
  | fuel + 1 =>
    item :: (if lazyP then [] else stAux m lazyP ((m.children item).reverse) fuel)
termination_by structural fuel => fuel

/-- Sibling part of `subtreeItems`, mirroring `insertChildrenAux`. -/
def stAux (m : TreeModelSig) (lazyP : Bool) : List Nat → Nat → List Nat
  | [], _ => []
  | _ :: _, 0 => []
  | c :: rest, fuel + 1 => subtreeItems m lazyP c fuel ++ stAux m lazyP rest fuel
termination_by structural cs fuel => fuel

end

mutual

/-- The strict model descendants reached by `setChildrenChecked` with
the given fuel. -/
def descendantsList (m : TreeModelSig) (parent : Nat) : Nat → List Nat
  | 0 => []
  | fuel + 1 => dlAux m (m.children parent) fuel
termination_by structural fuel => fuel

/-- Sibling part of `descendantsList`, mirroring `sccAux`. -/
def dlAux (m : TreeModelSig) : List Nat → Nat → List Nat
  | [], _ => []
  | _ :: _, 0 => []
  | c :: rest, fuel + 1 => (c :: descendantsList m c fuel) ++ dlAux m rest fuel
termination_by structural cs fuel => fuel

end

/-- Invariant I3's observable: every realized item's realized-children
map is empty (the post-reset lazy-population state). -/
def AllEmptyChildren (s : TvState) : Prop :=
  ∀ it info, alookup s.item2Info it = some info → info.child2Handle = []

/-- Invariant I4's observable: every realized item's native check-state
image agrees with the model (`checkable && checked`). -/
def NativeSync (m : TreeModelSig) (s : TvState) : Prop :=
  ∀ x info, alookup s.item2Info x = some info →
    alookup s.nativeChecked info.handle = some (m.checkable x && s.checked x)

/-- Executable form of `NativeSync` (used to state decidable
hypotheses). -/
def nativeSyncB (m : TreeModelSig) (s : TvState) : Bool :=
  s.item2Info.all
    (fun p => alookup s.nativeChecked p.2.handle == some (m.checkable p.1 && s.checked p.1))

/-- Executable form of handle freshness on the item registry: every
registered handle is below the fresh-handle counter. -/
def handlesBelowB (s : TvState) : Bool :=
  s.item2Info.all (fun p => p.2.handle < s.nextHandle)

/-- Everything in a `TvState` except the check flags and the native
check-state images: the part `setChildrenChecked` and
`applyCheckStateRecursive` must leave untouched. -/
def frameOf (s : TvState) :
    List (Nat × ItemInfo) × List (Nat × Nat) × Nat × Option Nat × Bool × List Nat :=
  (s.item2Info, s.handle2Item, s.nextHandle, s.currItem, s.lazyPopulation, s.checkedEvents)

/-- Whether `insertItemAfter` resolves a parent handle for the item: the
item is a root, or its model parent is realized. -/
def parentOkB (m : TreeModelSig) (s : TvState) (item : Nat) : Bool :=
  match m.parent item with
  | none => true
  | some p => (alookup s.item2Info p).isSome

/-- What one insertion pass does to the registries, relative to the set
`sub` of items it may touch (with `pexc` the parent entry whose
realized-children map the children loop updates): the registry invariant
holds afterwards, entries outside `sub` (and the parent) are untouched,
existing entries keep their handles, the handle registry only grows, and
the handle counter only advances. -/
structure InsOut (sub : List Nat) (pexc : Option Nat) (s r : TvState) : Prop where
  inv : RegInv r
  confine : ∀ x, x ∉ sub → (∀ p ∈ pexc, x ≠ p) →
    alookup r.item2Info x = alookup s.item2Info x
  hstable : ∀ x infox, alookup s.item2Info x = some infox →
    ∃ infoy, alookup r.item2Info x = some infoy ∧ infoy.handle = infox.handle
  h2mono : ∀ h0 x, alookup s.handle2Item h0 = some x → alookup r.handle2Item h0 = some x
  nextmono : s.nextHandle ≤ r.nextHandle
  lazyeq : r.lazyPopulation = s.lazyPopulation

/-- The per-slot effect of one publish pass: a once-flagged live slot is
vacated, every other slot is untouched. -/
def pubSlot {H : Type} (slot : HandlerSlot H) : HandlerSlot H :=
  match slot.handler with
  | none => slot
  | some _ => if slot.once then { slot with handler := none } else slot

/- ------------------------------------------------------------------
Concrete models and states used by witnesses and counterexamples. -/

/-- The spec's scenario model: root R(0) with children A(1), B(2); A has
child A1(3); everything checkable; eager population. -/
def mT : TreeModelSig :=
  { roots := [0]
    children := fun i => if i = 0 then [1, 2] else if i = 1 then [3] else []
    parent := fun i => if i = 1 ∨ i = 2 then some 0 else if i = 3 then some 1 else none
    checkable := fun _ => true
    lazyPopulation := false }

/-- The same tree under lazy population. -/
def mL : TreeModelSig :=
  { mT with lazyPopulation := true }

/-- A single non-checkable root item. -/
def mN : TreeModelSig :=
  { roots := [0]
    children := fun _ => []
    parent := fun _ => none
    checkable := fun _ => false
    lazyPopulation := false }

/-- The engine state right after `SetModel`'s registration phase, before
`resetItems`: empty registries, no current item, all model check flags
false. -/
def s0 (lazyP : Bool) : TvState :=
  { item2Info := []
    handle2Item := []
    nativeChecked := []
    nextHandle := 1
    currItem := none
    lazyPopulation := lazyP
    checked := fun _ => false
    checkedEvents := [] }

/-- Like `s0`, but the model reports R(0) checked (used for the lazy
check-push counterexample). -/
def s0r (lazyP : Bool) : TvState :=
  { s0 lazyP with checked := fun i => i = 0 }


/-- The registry picture after the lazy reset of `mL`: only root R(0) is
realized, with handle 1 and an empty realized-children map. -/
def sW : TvState :=
  { s0 true with
      item2Info := [(0, { handle := 1, child2Handle := [] })]
      handle2Item := [(1, 0)]
      nativeChecked := [(1, false)]
      nextHandle := 2 }


/-- Two fallible results take the same outcome constructor (with equal
error text); the payloads — in particular handle values — may differ. -/
def outShape {α β : Type} : Out α → Out β → Prop
  | Out.ok _, Out.ok _ => True
  | Out.err e, Out.err f => e = f
  | Out.crash, Out.crash => True
  | Out.nofuel, Out.nofuel => True
  | _, _ => False

/- ==================================================================
Theorems. -/

theorem alookup_aset_self {α : Type} (l : List (Nat × α)) (k : Nat) (v : α) :
    alookup (aset l k v) k = some v := by
  simp [aset, alookup]

theorem alookup_aerase {α : Type} (l : List (Nat × α)) (k k2 : Nat) :
    alookup (aerase l k) k2 = if k2 = k then none else alookup l k2 := by
  induction l with
  | nil => simp [aerase, alookup]
  | cons p rest ih =>
    by_cases hp : p.1 = k
    · have hdrop : aerase (p :: rest) k = aerase rest k := by
        simp [aerase, List.filter, hp]
      rw [hdrop, ih]
      by_cases hq : k2 = k
      · simp [hq]
      · have hne : ¬(p.1 = k2) := fun hr => hq (by rw [← hr]; exact hp)
        simp [hq, alookup, hne]
    · have hkeep : aerase (p :: rest) k = p :: aerase rest k := by
        simp [aerase, List.filter, hp]
      rw [hkeep]
      by_cases hq : p.1 = k2
      · have hk2 : ¬(k2 = k) := fun hr => hp (by rw [hq, hr])
        simp [alookup, hq, hk2]
      · simp only [alookup, if_neg hq]
        rw [ih]

theorem alookup_aerase_self {α : Type} (l : List (Nat × α)) (k : Nat) :
    alookup (aerase l k) k = none := by
  simp [alookup_aerase]

theorem alookup_aerase_ne {α : Type} (l : List (Nat × α)) (k k2 : Nat) (h : k2 ≠ k) :
    alookup (aerase l k) k2 = alookup l k2 := by
  simp [alookup_aerase, h]

theorem alookup_aset_ne {α : Type} (l : List (Nat × α)) (k k2 : Nat) (v : α) (h : k2 ≠ k) :
    alookup (aset l k v) k2 = alookup l k2 := by
  have hk : ¬(k = k2) := fun hh => h hh.symm
  simp [aset, alookup, hk, alookup_aerase_ne _ _ _ h]

/-- List index helper: reading the written position of `List.set`. -/
theorem lget_set_self {α : Type} :
    ∀ (l : List α) (i : Nat) (x : α), i < l.length → (l.set i x).get? i = some x := by
  intro l
  induction l with
  | nil => intro i x h; simp at h
  | cons a rest ih =>
    intro i x h
    cases i with
    | zero => simp
    | succ j =>
      simp only [List.set, List.get?]
      exact ih j x (by simpa using h)

/-- List index helper: `List.set` leaves other positions unchanged. -/
theorem lget_set_ne {α : Type} :
    ∀ (l : List α) (i j : Nat) (x : α), j ≠ i → (l.set i x).get? j = l.get? j := by
  intro l
  induction l with
  | nil => intro i j x h; simp
  | cons a rest ih =>
    intro i j x h
    cases i with
    | zero =>
      cases j with
      | zero => exact absurd rfl h
      | succ j2 => simp
    | succ i2 =>
      cases j with
      | zero => simp
      | succ j2 =>
        simp only [List.set, List.get?]
        exact ih i2 j2 x (fun hc => h (by simp [hc]))

/- ------------------------------------------------------------------
Event dispatch layer lemmas. -/

theorem attachAux_shift {H : Type} (h : H) :
    ∀ (l : List (HandlerSlot H)) (idx : Nat),
      attachAux h l idx = ((attachAux h l 0).1, idx + (attachAux h l 0).2) := by
  intro l
  induction l with
  | nil => intro idx; simp [attachAux]
  | cons slot rest ih =>
    intro idx
    cases hs : slot.handler with
    | none => simp [attachAux, hs]
    | some g =>
      simp only [attachAux, hs]
      rw [ih (idx + 1), ih 1]
      simp
      omega

theorem attachAux_snd_le {H : Type} (h : H) :
    ∀ (l : List (HandlerSlot H)), (attachAux h l 0).2 ≤ l.length := by
  intro l
  induction l with
  | nil => simp [attachAux]
  | cons slot rest ih =>
    cases hs : slot.handler with
    | none => simp [attachAux, hs]
    | some g =>
      simp only [attachAux, hs]
      rw [attachAux_shift h rest 1]
      simp
      omega

theorem attachAux_get_self {H : Type} (h : H) :
    ∀ (l : List (HandlerSlot H)),
      (attachAux h l 0).1.get? (attachAux h l 0).2 = some ⟨some h, false⟩ := by
  intro l
  induction l with
  | nil => simp [attachAux]
  | cons slot rest ih =>
    cases hs : slot.handler with
    | none => simp [attachAux, hs]
    | some g =>
      simp only [attachAux, hs]
      rw [attachAux_shift h rest 1]
      rw [Nat.add_comm 1 ((attachAux h rest 0).2)]
      simpa using ih

theorem attachAux_before {H : Type} (h : H) :
    ∀ (l : List (HandlerSlot H)) (j : Nat), j < (attachAux h l 0).2 →
      ∃ slot, l.get? j = some slot ∧ slot.handler ≠ none := by
  intro l
  induction l with
  | nil => intro j hj; simp [attachAux] at hj
  | cons slot rest ih =>
    intro j hj
    cases hs : slot.handler with
    | none => simp [attachAux, hs] at hj
    | some g =>
      simp only [attachAux, hs] at hj
      rw [attachAux_shift h rest 1] at hj
      simp at hj
      cases j with
      | zero => exact ⟨slot, by simp [hs]⟩
      | succ j2 =>
        have hj2 : j2 < (attachAux h rest 0).2 := by omega
        obtain ⟨slot2, hg, hn⟩ := ih j2 hj2
        exact ⟨slot2, by simpa using hg, hn⟩

theorem attachAux_other {H : Type} (h : H) :
    ∀ (l : List (HandlerSlot H)) (j : Nat), j ≠ (attachAux h l 0).2 →
      (attachAux h l 0).1.get? j = l.get? j := by
  intro l
  induction l with
  | nil =>
    intro j hj
    simp only [attachAux] at hj ⊢
    cases j with
    | zero => exact absurd rfl hj
    | succ j2 => simp
  | cons slot rest ih =>
    intro j hj
    cases hs : slot.handler with
    | none =>
      simp only [attachAux, hs] at hj ⊢
      cases j with
      | zero => exact absurd rfl hj
      | succ j2 => simp
    | some g =>
      simp only [attachAux, hs] at hj ⊢
      rw [attachAux_shift h rest 1] at hj ⊢
      simp at hj ⊢
      cases j with
      | zero => simp [← hs]
      | succ j2 =>
        simpa using ih j2 (by omega)

theorem attachAux_len {H : Type} (h : H) :
    ∀ (l : List (HandlerSlot H)),
      (attachAux h l 0).1.length =
        (if (attachAux h l 0).2 = l.length then l.length + 1 else l.length) := by
  intro l
  induction l with
  | nil => simp [attachAux]
  | cons slot rest ih =>
    cases hs : slot.handler with
    | none =>
      have hle := attachAux_snd_le h rest
      simp [attachAux, hs]
    | some g =>
      simp only [attachAux, hs]
      rw [attachAux_shift h rest 1]
      simp only [List.length_cons]
      by_cases hc : (attachAux h rest 0).2 = rest.length
      · rw [ih, if_pos hc, if_pos (by omega)]
      · rw [ih, if_neg hc, if_neg (by omega)]

theorem publishAux_fst {H : Type} :
    ∀ (l : List (HandlerSlot H)), (publishAux l).1 = l.map pubSlot := by
  intro l
  induction l with
  | nil => simp [publishAux]
  | cons slot rest ih =>
    cases hs : slot.handler with
    | none => simp [publishAux, hs, pubSlot, ih]
    | some g => simp [publishAux, hs, pubSlot, ih]

theorem publishAux_snd {H : Type} :
    ∀ (l : List (HandlerSlot H)),
      (publishAux l).2 = l.filterMap (fun slot => slot.handler) := by
  intro l
  induction l with
  | nil => simp [publishAux]
  | cons slot rest ih =>
    cases hs : slot.handler with
    | none => simp [publishAux, hs, ih, List.filterMap_cons, hs]
    | some g => simp [publishAux, hs, ih, List.filterMap_cons, hs]

/-- C10: `SetCurrentItem` is idempotent at the public interface:
calling it with the item that is already current (including nil when no
item is current) returns nil immediately, leaving the state — the
registries, the current item, everything — untouched, without any
native selection call. -/
theorem C10_setCurrentItem_idempotent (m : TreeModelSig) (s : TvState) (fuel : Nat) :
    setCurrentItem m s s.currItem fuel = (s, Out.ok ()) := by
  simp [setCurrentItem]

/-- C7: the event-channel contract: `Attach` stores the handler in the
first vacated slot and returns its index (appending only when no slot is
vacated, so the index is the old length exactly when every slot is
live); `Detach` vacates only its own slot, preserving indices, so
previously issued attachment handles stay valid; `Once` attaches with
the once flag set; `Publish` invokes all live handlers in slot order;
and a live once-flagged slot is vacated by the publish pass, so its
handler runs at most once. -/
theorem C7_event_channel_contract (H : Type) (e : TCEvent H) (h : H) :
    ((eventAttach e h).2 ≤ e.handlers.length) ∧
    ((eventAttach e h).1.handlers.get? (eventAttach e h).2 = some ⟨some h, false⟩) ∧
    (∀ j, j < (eventAttach e h).2 →
      ∃ slot, e.handlers.get? j = some slot ∧ slot.handler ≠ none) ∧
    (∀ j, j ≠ (eventAttach e h).2 →
      (eventAttach e h).1.handlers.get? j = e.handlers.get? j) ∧
    ((eventAttach e h).1.handlers.length =
      (if (eventAttach e h).2 = e.handlers.length then e.handlers.length + 1
       else e.handlers.length)) ∧
    (∀ i, i < e.handlers.length → ((eventDetach e i).1.handlers.length = e.handlers.length ∧
      ∀ j, j ≠ i → (eventDetach e i).1.handlers.get? j = e.handlers.get? j)) ∧
    ((eventOnce e h).handlers.get? (eventAttach e h).2 = some ⟨some h, true⟩) ∧
    ((eventPublish e).2 = e.handlers.filterMap (fun slot => slot.handler)) ∧
    (∀ i slot, e.handlers.get? i = some slot → slot.handler ≠ none → slot.once = true →
      (eventPublish e).1.handlers.get? i = some { slot with handler := none }) := by
  refine ⟨?_, ?_, ?_, ?_, ?_, ?_, ?_, ?_, ?_⟩
  · simpa [eventAttach] using attachAux_snd_le h e.handlers
  · simpa [eventAttach] using attachAux_get_self h e.handlers
  · intro j hj
    exact attachAux_before h e.handlers j (by simpa [eventAttach] using hj)
  · intro j hj
    simpa [eventAttach] using attachAux_other h e.handlers j (by simpa [eventAttach] using hj)
  · simpa [eventAttach] using attachAux_len h e.handlers
  · intro i hi
    constructor
    · simp [eventDetach, hi]
    · intro j hj
      simp only [eventDetach, hi, dif_pos]
      exact lget_set_ne _ _ _ _ hj
  · have hget := attachAux_get_self h e.handlers
    have hlen : (attachAux h e.handlers 0).2 < (attachAux h e.handlers 0).1.length := by
      have := List.get?_eq_some.1 hget
      exact this.1
    simp only [eventOnce, eventAttach, hget]
    exact lget_set_self _ _ _ hlen
  · simpa [eventPublish] using publishAux_snd e.handlers
  · intro i slot hget hlive honce
    have hfst := publishAux_fst e.handlers
    have : (publishAux e.handlers).1.get? i = some (pubSlot slot) := by
      rw [hfst, List.get?_map, hget]
      rfl
    rw [show (eventPublish e).1.handlers = (publishAux e.handlers).1 from rfl, this]
    cases hs : slot.handler with
    | none => exact absurd hs hlive
    | some g => simp [pubSlot, hs, honce]

/-- Witness for C7 at a concrete channel: a live once-flagged slot is
vacated by the publish pass. -/
theorem C7_event_channel_contract_witness :
    (([⟨some 5, true⟩] : List (HandlerSlot Nat)).get? 0 = some ⟨some 5, true⟩) ∧
    (eventPublish (⟨[⟨some 5, true⟩]⟩ : TCEvent Nat)).1.handlers.get? 0 =
      some { (⟨some 5, true⟩ : HandlerSlot Nat) with handler := none } :=
  ⟨rfl, (C7_event_channel_contract Nat ⟨[⟨some 5, true⟩]⟩ 5).2.2.2.2.2.2.2.2 0
    ⟨some 5, true⟩ rfl (by simp) rfl⟩

/- ------------------------------------------------------------------
C4: removal. -/

/-- C4: `removeItem` tolerates a realized item with no realized
descendants — the leaf fast path deletes it and returns nil — but on an
item with no registry entry it does not return the `invalid item` error
its own guard promises: the preceding `removeDescendants` call
dereferences the nil `*treeViewItemInfo` and panics, so the guard is
unreachable for exactly the items it is meant to reject. -/
theorem C4_removeItem_leaf_and_unregistered (m : TreeModelSig) (s : TvState)
    (item fuel : Nat) (info : ItemInfo) :
    (alookup s.item2Info item = some info → info.child2Handle = [] →
      (removeItem m s item (fuel + 1)).2 = Out.ok () ∧
      alookup (removeItem m s item (fuel + 1)).1.item2Info item = none ∧
      alookup (removeItem m s item (fuel + 1)).1.handle2Item info.handle = none) ∧
    (alookup s.item2Info item = none →
      removeItem m s item (fuel + 1) = (s, Out.crash)) := by
  constructor
  · intro hreg hleaf
    simp only [removeItem, hreg, hleaf, List.map_nil, removeSeq]
    refine ⟨trivial, ?_, ?_⟩ <;>
    · cases hpar : m.parent item with
      | none => simp [alookup_aerase_self]
      | some p =>
        cases hp : alookup s.item2Info p with
        | none => simp [alookup_aerase_self]
        | some pinfo => simp [alookup_aerase_self]
  · intro hnone
    simp [removeItem, hnone]

/-- Witness for C4 on the fully realized four-item tree: removing the
leaf A1(3) succeeds, removing the unregistered item 99 panics. -/
theorem C4_removeItem_witness :
    ((removeItem mT (resetItems mT (s0 false) 20).1 3 10).2 = Out.ok ()) ∧
    (removeItem mT (resetItems mT (s0 false) 20).1 99 10 =
      ((resetItems mT (s0 false) 20).1, Out.crash)) :=
  ⟨((C4_removeItem_leaf_and_unregistered mT (resetItems mT (s0 false) 20).1 3 9
      ⟨4, []⟩).1 (by decide) (by decide)).1,
   (C4_removeItem_leaf_and_unregistered mT (resetItems mT (s0 false) 20).1 99 9
      ⟨0, []⟩).2 (by decide)⟩

/- ------------------------------------------------------------------
C3: insertion anchoring. -/

theorem anchorLoopIdx_no_item (s : TvState) (cs : List Nat) (item : Nat) :
    ∀ (n : Nat) (acc : Out Nat), (∀ j, j < n → cs.getD j 0 ≠ item) →
      anchorLoopIdx s cs item n acc = acc := by
  intro n
  induction n with
  | zero => intro acc _; simp [anchorLoopIdx]
  | succ i ih =>
    intro acc h
    have hi := h i (by omega)
    simp only [anchorLoopIdx, if_neg hi]
    exact ih acc (fun j hj => h j (by omega))

theorem anchorLoopIdx_found (s : TvState) (cs : List Nat) (item k : Nat)
    (info : ItemInfo) (hk : cs.getD k 0 = item) (hkpos : k ≠ 0)
    (hpred : alookup s.item2Info (cs.getD (k - 1) 0) = some info) :
    ∀ (n : Nat) (acc : Out Nat), k < n →
      (∀ j, j < n → j ≠ k → cs.getD j 0 ≠ item) →
      anchorLoopIdx s cs item n acc = Out.ok info.handle := by
  intro n
  induction n with
  | zero => intro acc h _; omega
  | succ i ih =>
    intro acc hkn hu
    by_cases hik : i = k
    · subst hik
      simp only [anchorLoopIdx, if_pos hk, if_neg hkpos, hpred]
      exact anchorLoopIdx_no_item s cs item i _ (fun j hj => hu j (by omega) (by omega))
    · have hne := hu i (by omega) hik
      simp only [anchorLoopIdx, if_neg hne]
      exact ih acc (by omega) (fun j hj hjk => hu j (by omega) hjk)

theorem anchorLoopIdx_found_crash (s : TvState) (cs : List Nat) (item k : Nat)
    (hk : cs.getD k 0 = item) (hkpos : k ≠ 0)
    (hpred : alookup s.item2Info (cs.getD (k - 1) 0) = none) :
    ∀ (n : Nat) (acc : Out Nat), k < n →
      (∀ j, j < n → j ≠ k → cs.getD j 0 ≠ item) →
      anchorLoopIdx s cs item n acc = Out.crash := by
  intro n
  induction n with
  | zero => intro acc h _; omega
  | succ i ih =>
    intro acc hkn hu
    by_cases hik : i = k
    · subst hik
      simp only [anchorLoopIdx, if_pos hk, if_neg hkpos, hpred]
    · have hne := hu i (by omega) hik
      simp only [anchorLoopIdx, if_neg hne]
      exact ih acc (by omega) (fun j hj hjk => hu j (by omega) hjk)

theorem anchorLoopIdx_first (s : TvState) (cs : List Nat) (item : Nat)
    (hk : cs.getD 0 0 = item) :
    ∀ (n : Nat) (acc : Out Nat), 0 < n →
      (∀ j, j < n → j ≠ 0 → cs.getD j 0 ≠ item) →
      anchorLoopIdx s cs item n acc = Out.ok TVI_FIRST := by
  intro n
  induction n with
  | zero => intro acc h _; omega
  | succ i ih =>
    intro acc hpos hu
    by_cases hi0 : i = 0
    · subst hi0
      simp only [anchorLoopIdx]
      rw [if_pos hk]
      simp [anchorLoopIdx]
    · have hne := hu i (by omega) hi0
      simp only [anchorLoopIdx, if_neg hne]
      exact ih acc (by omega) (fun j hj hjk => hu j (by omega) hjk)

/-- C3 (amended): the `ItemInserted` anchor is computed from the
*immediate* preceding sibling, not the nearest realized one: (i) when
the immediate predecessor is realized its handle is the anchor; (ii)
when the immediate predecessor is unrealized the handler panics on the
nil registry entry instead of skipping to a realized predecessor or
anchoring first; (iii) an item at index 0 is anchored at `TVI_FIRST`;
and (iv) when the parent itself is unrealized and the item is its first
child, `insertItemAfter` reports `invalid parent` and the handler
swallows it, a no-op. -/
theorem C3_insert_anchor_amended (m : TreeModelSig) (s : TvState) (item p k fuel : Nat) :
    (∀ info, m.parent item = some p → k ≠ 0 → k < (m.children p).length →
      (m.children p).getD k 0 = item →
      (∀ j, j < (m.children p).length → j ≠ k → (m.children p).getD j 0 ≠ item) →
      alookup s.item2Info ((m.children p).getD (k - 1) 0) = some info →
      computeInsertAnchor m s item = Out.ok info.handle) ∧
    (m.parent item = some p → k ≠ 0 → k < (m.children p).length →
      (m.children p).getD k 0 = item →
      (∀ j, j < (m.children p).length → j ≠ k → (m.children p).getD j 0 ≠ item) →
      alookup s.item2Info ((m.children p).getD (k - 1) 0) = none →
      computeInsertAnchor m s item = Out.crash) ∧
    (m.parent item = some p → 0 < (m.children p).length →
      (m.children p).getD 0 0 = item →
      (∀ j, j < (m.children p).length → j ≠ 0 → (m.children p).getD j 0 ≠ item) →
      computeInsertAnchor m s item = Out.ok TVI_FIRST) ∧
    (m.parent item = some p → alookup s.item2Info p = none →
      0 < (m.children p).length →
      (m.children p).getD 0 0 = item →
      (∀ j, j < (m.children p).length → j ≠ 0 → (m.children p).getD j 0 ≠ item) →
      itemInsertedHandler m s item (fuel + 1) = (s, Out.ok ())) := by
  refine ⟨?_, ?_, ?_, ?_⟩
  · intro info hpar hkpos hklen hk hu hpred
    simp only [computeInsertAnchor, hpar]
    exact anchorLoopIdx_found s _ item k info hk hkpos hpred _ _ hklen hu
  · intro hpar hkpos hklen hk hu hpred
    simp only [computeInsertAnchor, hpar]
    exact anchorLoopIdx_found_crash s _ item k hk hkpos hpred _ _ hklen hu
  · intro hpar hlen hk hu
    simp only [computeInsertAnchor, hpar]
    exact anchorLoopIdx_first s _ item hk _ _ hlen hu
  · intro hpar hp hlen hk hu
    have hanchor : computeInsertAnchor m s item = Out.ok TVI_FIRST := by
      simp only [computeInsertAnchor, hpar]
      exact anchorLoopIdx_first s _ item hk _ _ hlen hu
    simp only [itemInsertedHandler, hanchor, insertItemAfter, hpar, hp,
      Option.isNone_none, if_pos]

/-- Witness for C3 (amended) on concrete states: on the fully realized
tree the anchor for B(2) is A(1)'s handle 3; on the lazily reset tree
the unrealized grandchild A1(3), first child of the unrealized A(1),
makes the handler a no-op. -/
theorem C3_insert_anchor_amended_witness :
    (computeInsertAnchor mT (resetItems mT (s0 false) 20).1 2 = Out.ok 3) ∧
    (itemInsertedHandler mL (resetItems mL (s0 true) 20).1 3 10 =
      ((resetItems mL (s0 true) 20).1, Out.ok ())) :=
  ⟨(C3_insert_anchor_amended mT (resetItems mT (s0 false) 20).1 2 0 1 9).1
      ⟨3, [(3, 4)]⟩ (by decide) (by decide) (by decide) (by decide) (by decide) (by decide),
   (C3_insert_anchor_amended mL (resetItems mL (s0 true) 20).1 3 1 0 9).2.2.2
      (by decide) (by decide) (by decide) (by decide) (by decide)⟩

/-- C3 counterexample: in the lazily reset tree the parent R(0) is
realized, the sibling A(1) preceding the inserted B(2) is not; the claim
calls for skipping A and anchoring at the first position, but the code
dereferences A's nil registry entry and panics. -/
theorem C3_insert_anchor_cex :
    ((alookup (resetItems mL (s0 true) 20).1.item2Info 0).isSome = true) ∧
    (alookup (resetItems mL (s0 true) 20).1.item2Info 1 = none) ∧
    (computeInsertAnchor mL (resetItems mL (s0 true) 20).1 2 = Out.crash) ∧
    ((itemInsertedHandler mL (resetItems mL (s0 true) 20).1 2 10).2 = Out.crash) := by
  refine ⟨by decide, by decide, by decide, by decide⟩

/- ------------------------------------------------------------------
C1, C2: checkbox toggle propagation. -/

theorem setModelChecked_frame (m : TreeModelSig) (s : TvState) (item : Nat) (b : Bool) :
    frameOf (setModelChecked m s item b) = frameOf s := by
  by_cases hc : m.checkable item <;> simp [setModelChecked, frameOf, hc]

theorem setModelChecked_item2Info (m : TreeModelSig) (s : TvState) (item : Nat) (b : Bool) :
    (setModelChecked m s item b).item2Info = s.item2Info := by
  by_cases hc : m.checkable item <;> simp [setModelChecked, hc]

theorem setModelChecked_checked (m : TreeModelSig) (s : TvState) (item x : Nat) (b : Bool) :
    (setModelChecked m s item b).checked x = b ∨
    (setModelChecked m s item b).checked x = s.checked x := by
  by_cases hc : m.checkable item
  · by_cases hx : x = item <;> simp [setModelChecked, hc, hx]
  · simp [setModelChecked, hc]

theorem setModelChecked_checked_self (m : TreeModelSig) (s : TvState) (item : Nat)
    (b : Bool) (hc : m.checkable item = true) :
    (setModelChecked m s item b).checked item = b := by
  simp [setModelChecked, hc]

/-- `setChildrenChecked` touches only the model check flags and the
native check-state images. -/
theorem scc_frame (fuel : Nat) (m : TreeModelSig) (b : Bool) :
    (∀ s parent, frameOf (setChildrenChecked m s parent b fuel).1 = frameOf s) ∧
    (∀ s cs, frameOf (sccAux m s cs b fuel).1 = frameOf s) := by
  induction fuel with
  | zero =>
    refine ⟨fun s parent => by simp [setChildrenChecked], fun s cs => ?_⟩
    cases cs with
    | nil => simp [sccAux]
    | cons c rest => simp [sccAux]
  | succ fuel ih =>
    refine ⟨fun s parent => by simpa [setChildrenChecked] using ih.2 s (m.children parent),
      fun s cs => ?_⟩
    cases cs with
    | nil => simp [sccAux]
    | cons c rest =>
      simp only [sccAux]
      cases htv : alookup (setModelChecked m s c b).item2Info c with
      | none =>
        simp only [tvSetChecked, htv]
        rw [ih.2 (setModelChecked m s c b) rest, setModelChecked_frame]
      | some info =>
        simp only [tvSetChecked, htv]
        rcases hscc : setChildrenChecked m
            { setModelChecked m s c b with
                nativeChecked :=
                  aset (setModelChecked m s c b).nativeChecked info.handle b } c b fuel
          with ⟨s3, o⟩
        have hfr3 : frameOf s3 = frameOf (setModelChecked m s c b) := by
          have := ih.1 { setModelChecked m s c b with
              nativeChecked :=
                aset (setModelChecked m s c b).nativeChecked info.handle b } c
          rw [hscc] at this
          simpa [frameOf] using this
        cases o with
        | ok u =>
          simp only [hscc]
          rw [ih.2 s3 rest, hfr3, setModelChecked_frame]
        | err e => simp only [hscc]; rw [hfr3, setModelChecked_frame]
        | crash => simp only [hscc]; rw [hfr3, setModelChecked_frame]
        | nofuel => simp only [hscc]; rw [hfr3, setModelChecked_frame]

theorem scc_frame_item2Info (fuel : Nat) (m : TreeModelSig) (s : TvState)
    (parent : Nat) (b : Bool) :
    (setChildrenChecked m s parent b fuel).1.item2Info = s.item2Info :=
  congrArg (fun t => t.1) ((scc_frame fuel m b).1 s parent)

theorem scc_frame_events (fuel : Nat) (m : TreeModelSig) (s : TvState)
    (parent : Nat) (b : Bool) :
    (setChildrenChecked m s parent b fuel).1.checkedEvents = s.checkedEvents :=
  congrArg (fun t => t.2.2.2.2.2) ((scc_frame fuel m b).1 s parent)

/-- `setChildrenChecked` writes only the value `b` into model check
flags: every flag ends up either `b` or what it was. -/
theorem scc_checked_or (fuel : Nat) (m : TreeModelSig) (b : Bool) :
    (∀ s parent x, (setChildrenChecked m s parent b fuel).1.checked x = b ∨
      (setChildrenChecked m s parent b fuel).1.checked x = s.checked x) ∧
    (∀ s cs x, (sccAux m s cs b fuel).1.checked x = b ∨
      (sccAux m s cs b fuel).1.checked x = s.checked x) := by
  induction fuel with
  | zero =>
    refine ⟨fun s parent x => by simp [setChildrenChecked], fun s cs x => ?_⟩
    cases cs with
    | nil => simp [sccAux]
    | cons c rest => simp [sccAux]
  | succ fuel ih =>
    refine ⟨fun s parent x => by
        simpa [setChildrenChecked] using ih.2 s (m.children parent) x,
      fun s cs x => ?_⟩
    cases cs with
    | nil => simp [sccAux]
    | cons c rest =>
      simp only [sccAux]
      cases htv : alookup (setModelChecked m s c b).item2Info c with
      | none =>
        simp only [tvSetChecked, htv]
        rcases ih.2 (setModelChecked m s c b) rest x with h | h
        · exact Or.inl h
        · rcases setModelChecked_checked m s c x b with h2 | h2
          · exact Or.inl (h.trans h2)
          · exact Or.inr (h.trans h2)
      | some info =>
        simp only [tvSetChecked, htv]
        rcases hscc : setChildrenChecked m
            { setModelChecked m s c b with
                nativeChecked :=
                  aset (setModelChecked m s c b).nativeChecked info.handle b } c b fuel
          with ⟨s3, o⟩
        have hmid : s3.checked x = b ∨ s3.checked x = (setModelChecked m s c b).checked x := by
          have := ih.1 { setModelChecked m s c b with
              nativeChecked :=
                aset (setModelChecked m s c b).nativeChecked info.handle b } c x
          rw [hscc] at this
          simpa using this
        have hcomb : s3.checked x = b ∨ s3.checked x = s.checked x := by
          rcases hmid with h | h
          · exact Or.inl h
          · rcases setModelChecked_checked m s c x b with h2 | h2
            · exact Or.inl (h.trans h2)
            · exact Or.inr (h.trans h2)
        cases o with
        | ok u =>
          simp only [hscc]
          rcases ih.2 s3 rest x with h | h
          · exact Or.inl h
          · rcases hcomb with h2 | h2
            · exact Or.inl (h.trans h2)
            · exact Or.inr (h.trans h2)
        | err e => simpa only [hscc] using hcomb
        | crash => simpa only [hscc] using hcomb
        | nofuel => simpa only [hscc] using hcomb

theorem scc_keeps (fuel : Nat) (m : TreeModelSig) (b : Bool) (s : TvState)
    (parent x : Nat) (h : s.checked x = b) :
    (setChildrenChecked m s parent b fuel).1.checked x = b := by
  rcases (scc_checked_or fuel m b).1 s parent x with h2 | h2
  · exact h2
  · exact h2.trans h

theorem sccAux_keeps (fuel : Nat) (m : TreeModelSig) (b : Bool) (s : TvState)
    (cs : List Nat) (x : Nat) (h : s.checked x = b) :
    (sccAux m s cs b fuel).1.checked x = b := by
  rcases (scc_checked_or fuel m b).2 s cs x with h2 | h2
  · exact h2
  · exact h2.trans h

/-- When `setChildrenChecked` completes and every model descendant in
reach is realized, every checkable descendant's model flag becomes `b`. -/
theorem scc_sets (fuel : Nat) (m : TreeModelSig) (b : Bool) :
    (∀ s parent, (setChildrenChecked m s parent b fuel).2 = Out.ok () →
      (∀ x ∈ descendantsList m parent fuel, (alookup s.item2Info x).isSome = true) →
      ∀ x ∈ descendantsList m parent fuel, m.checkable x = true →
        (setChildrenChecked m s parent b fuel).1.checked x = b) ∧
    (∀ s cs, (sccAux m s cs b fuel).2 = Out.ok () →
      (∀ x ∈ dlAux m cs fuel, (alookup s.item2Info x).isSome = true) →
      ∀ x ∈ dlAux m cs fuel, m.checkable x = true →
        (sccAux m s cs b fuel).1.checked x = b) := by
  induction fuel with
  | zero =>
    constructor
    · intro s parent hok hreal x hx
      simp [descendantsList] at hx
    · intro s cs hok hreal x hx
      cases cs with
      | nil => simp [dlAux] at hx
      | cons c rest => simp [dlAux] at hx
  | succ fuel ih =>
    constructor
    · intro s parent hok hreal x hx
      simp only [setChildrenChecked] at hok ⊢
      simp only [descendantsList] at hreal hx
      exact ih.2 s (m.children parent) hok hreal x hx
    · intro s cs hok hreal x hx
      cases cs with
      | nil => simp [dlAux] at hx
      | cons c rest =>
        simp only [dlAux] at hreal hx
        simp only [sccAux] at hok ⊢
        intro hcx
        have hcreal : (alookup s.item2Info c).isSome = true := by
          refine hreal c ?_
          simp
        rcases htv : alookup (setModelChecked m s c b).item2Info c with _ | info
        · rw [setModelChecked_item2Info] at htv
          rw [htv] at hcreal
          simp at hcreal
        · generalize htv2 : tvSetChecked (setModelChecked m s c b) c b = r1 at hok ⊢
          obtain ⟨s2, o1⟩ := r1
          simp only [tvSetChecked, htv] at htv2
          have hs2i : s2.item2Info = s.item2Info := by
            have h := congrArg (fun p => p.1.item2Info) htv2
            simp at h
            rw [← h, setModelChecked_item2Info]
          have hs2c : s2.checked = (setModelChecked m s c b).checked := by
            have h := congrArg (fun p => p.1.checked) htv2
            simp at h
            exact h.symm
          have ho1 : o1 = Out.ok () := by
            have h := congrArg (fun p => p.2) htv2
            simpa using h.symm
          subst ho1
          dsimp only at hok ⊢
          generalize hscc : setChildrenChecked m s2 c b fuel = r2 at hok ⊢
          obtain ⟨s3, o⟩ := r2
          cases o with
          | err e => simp at hok
          | crash => simp at hok
          | nofuel => simp at hok
          | ok u =>
            dsimp only at hok ⊢
            have hcall : (setChildrenChecked m s2 c b fuel).2 = Out.ok () := by
              rw [hscc]
            have hi3 : s3.item2Info = s.item2Info := by
              have h := scc_frame_item2Info fuel m s2 c b
              rw [hscc] at h
              simpa [hs2i] using h
            rw [List.mem_append, List.mem_cons] at hx
            rcases hx with hxc | hxdl
            · rcases hxc with hxc | hxdl2
              · subst hxc
                have h1 : s2.checked x = b := by
                  rw [hs2c]
                  exact setModelChecked_checked_self m s x b hcx
                have h2 : s3.checked x = b := by
                  have hk := scc_keeps fuel m b s2 x x h1
                  rw [hscc] at hk
                  simpa using hk
                exact sccAux_keeps fuel m b s3 rest x h2
              · have hrealc : ∀ y ∈ descendantsList m c fuel,
                    (alookup s2.item2Info y).isSome = true := by
                  intro y hy
                  rw [hs2i]
                  refine hreal y ?_
                  simp [hy]
                have hset := ih.1 s2 c hcall hrealc x hxdl2 hcx
                rw [hscc] at hset
                have h2 : s3.checked x = b := by simpa using hset
                exact sccAux_keeps fuel m b s3 rest x h2
            · refine ih.2 s3 rest hok ?_ x hxdl hcx
              intro y hy
              rw [hi3]
              refine hreal y ?_
              simp [hy]

theorem setModelChecked_events (m : TreeModelSig) (s : TvState) (item : Nat) (b : Bool) :
    (setModelChecked m s item b).checkedEvents = s.checkedEvents :=
  congrArg (fun t => t.2.2.2.2.2) (setModelChecked_frame m s item b)

/-- C1 (amended): on a state-icon click the engine inverts the item's
pre-click native check state, writes the inverted value into the model
item and into every model child, but descends past a child only when
that child is realized; hence when every reachable model descendant is
realized, every checkable descendant's model flag ends up inverted. -/
theorem C1_check_propagation_amended (m : TreeModelSig) (s : TvState)
    (hHit item fuel : Nat)
    (hresolve : alookup s.handle2Item hHit = some item)
    (hcheckable : m.checkable item = true)
    (hok : (nmClickHandler m s hHit true fuel).2 = Out.ok ())
    (hreal : ∀ x ∈ descendantsList m item fuel, (alookup s.item2Info x).isSome = true) :
    (nmClickHandler m s hHit true fuel).1.checked item = !(tvChecked s item) ∧
    (∀ x ∈ descendantsList m item fuel, m.checkable x = true →
      (nmClickHandler m s hHit true fuel).1.checked x = !(tvChecked s item)) := by
  simp only [nmClickHandler, hresolve, if_true] at hok ⊢
  generalize hscc : setChildrenChecked m
      (setModelChecked m s item (!(tvChecked s item))) item (!(tvChecked s item)) fuel
    = r at hok ⊢
  obtain ⟨s2, o⟩ := r
  cases o with
  | err e => simp at hok
  | crash => simp at hok
  | nofuel => simp at hok
  | ok u =>
    dsimp only at hok ⊢
    simp only [hcheckable, if_true] at hok ⊢
    have hcall : (setChildrenChecked m
        (setModelChecked m s item (!(tvChecked s item))) item
        (!(tvChecked s item)) fuel).2 = Out.ok () := by
      rw [hscc]
    constructor
    · have h1 : (setModelChecked m s item (!(tvChecked s item))).checked item =
          !(tvChecked s item) :=
        setModelChecked_checked_self m s item (!(tvChecked s item)) hcheckable
      have hk := scc_keeps fuel m (!(tvChecked s item))
        (setModelChecked m s item (!(tvChecked s item))) item item h1
      rw [hscc] at hk
      simpa [publishChecked] using hk
    · intro x hx hcx
      have hreal2 : ∀ y ∈ descendantsList m item fuel,
          (alookup (setModelChecked m s item (!(tvChecked s item))).item2Info y).isSome
            = true := by
        intro y hy
        rw [setModelChecked_item2Info]
        exact hreal y hy
      have hset := (scc_sets fuel m (!(tvChecked s item))).1
        (setModelChecked m s item (!(tvChecked s item))) item hcall hreal2 x hx hcx
      rw [hscc] at hset
      simpa [publishChecked] using hset

/-- Witness for C1 (amended) on the spec's scenario: with R(0), A(1),
B(2), A1(3) all realized and R's native state unchecked, toggling R via
a state-icon click makes the model report every one of them checked. -/
theorem C1_check_propagation_amended_witness :
    (nmClickHandler mT (resetItems mT (s0 false) 20).1 1 true 20).1.checked 0 = true ∧
    (nmClickHandler mT (resetItems mT (s0 false) 20).1 1 true 20).1.checked 1 = true ∧
    (nmClickHandler mT (resetItems mT (s0 false) 20).1 1 true 20).1.checked 2 = true ∧
    (nmClickHandler mT (resetItems mT (s0 false) 20).1 1 true 20).1.checked 3 = true := by
  have h := C1_check_propagation_amended mT (resetItems mT (s0 false) 20).1 1 0 20
    (by decide) (by decide) (by decide) (by decide)
  have hb : (!(tvChecked (resetItems mT (s0 false) 20).1 0)) = true := by decide
  refine ⟨?_, ?_, ?_, ?_⟩
  · rw [← hb]; exact h.1
  · rw [← hb]; exact h.2 1 (by decide) (by decide)
  · rw [← hb]; exact h.2 2 (by decide) (by decide)
  · rw [← hb]; exact h.2 3 (by decide) (by decide)

/-- C1 counterexample: under lazy population only R(0) is realized;
toggling R checks R, A(1) and B(2) in the model, but A's model child
A1(3) — a model descendant the claim requires to become checked
regardless of realization — is left unchecked, because the recursion
descends only below children whose native update succeeded. -/
theorem C1_check_propagation_cex :
    ((nmClickHandler mL (resetItems mL (s0 true) 20).1 1 true 20).2 = Out.ok ()) ∧
    (alookup (resetItems mL (s0 true) 20).1.handle2Item 1 = some 0) ∧
    (mL.children 1 = [3]) ∧
    ((nmClickHandler mL (resetItems mL (s0 true) 20).1 1 true 20).1.checked 0 = true) ∧
    ((nmClickHandler mL (resetItems mL (s0 true) 20).1 1 true 20).1.checked 1 = true) ∧
    ((nmClickHandler mL (resetItems mL (s0 true) 20).1 1 true 20).1.checked 2 = true) ∧
    ((nmClickHandler mL (resetItems mL (s0 true) 20).1 1 true 20).1.checked 3 = false) := by
  decide

/-- C2 (amended): a state-icon click resolving to a *checkable* item
publishes exactly one checked event, carrying the toggled item itself —
the propagation to descendants publishes nothing. -/
theorem C2_single_checked_event_amended (m : TreeModelSig) (s : TvState)
    (hHit item fuel : Nat)
    (hresolve : alookup s.handle2Item hHit = some item)
    (hcheckable : m.checkable item = true)
    (hok : (nmClickHandler m s hHit true fuel).2 = Out.ok ()) :
    (nmClickHandler m s hHit true fuel).1.checkedEvents = s.checkedEvents ++ [item] := by
  simp only [nmClickHandler, hresolve, if_true] at hok ⊢
  generalize hscc : setChildrenChecked m
      (setModelChecked m s item (!(tvChecked s item))) item (!(tvChecked s item)) fuel
    = r at hok ⊢
  obtain ⟨s2, o⟩ := r
  cases o with
  | err e => simp at hok
  | crash => simp at hok
  | nofuel => simp at hok
  | ok u =>
    dsimp only at hok ⊢
    simp only [hcheckable, if_true] at hok ⊢
    have hev : s2.checkedEvents = s.checkedEvents := by
      have h := scc_frame_events fuel m
        (setModelChecked m s item (!(tvChecked s item))) item (!(tvChecked s item))
      rw [hscc] at h
      simpa [setModelChecked_events] using h
    simp [publishChecked, hev]

/-- Witness for C2 (amended): clicking R(0)'s state icon in the fully
realized scenario tree publishes the single event `[R]`. -/
theorem C2_single_checked_event_amended_witness :
    (nmClickHandler mT (resetItems mT (s0 false) 20).1 1 true 20).1.checkedEvents =
      (resetItems mT (s0 false) 20).1.checkedEvents ++ [0] :=
  C2_single_checked_event_amended mT (resetItems mT (s0 false) 20).1 1 0 20
    (by decide) (by decide) (by decide)

/-- C2 counterexample: a state-icon click on a realized item without the
checkable capability panics at the `item.(TreeCheckableItem)` type
assertion after propagating, publishing no event at all — the claim's
"exactly one checked-event per state-icon hit" fails there. -/
theorem C2_single_checked_event_cex :
    (alookup (resetItems mN (s0 false) 20).1.handle2Item 1 = some 0) ∧
    (mN.checkable 0 = false) ∧
    ((nmClickHandler mN (resetItems mN (s0 false) 20).1 1 true 20).2 = Out.crash) ∧
    ((nmClickHandler mN (resetItems mN (s0 false) 20).1 1 true 20).1.checkedEvents = []) := by
  decide

/- ------------------------------------------------------------------
C6: lazy population. -/

theorem alookup_mem {α : Type} :
    ∀ (l : List (Nat × α)) (k : Nat) (v : α), alookup l k = some v → (k, v) ∈ l := by
  intro l
  induction l with
  | nil => intro k v h; simp [alookup] at h
  | cons p rest ih =>
    intro k v h
    obtain ⟨a, b⟩ := p
    simp only [alookup] at h
    by_cases ha : a = k
    · subst ha
      rw [if_pos rfl] at h
      obtain rfl : b = v := by simpa using h
      exact List.mem_cons_self _ _
    · rw [if_neg ha] at h
      exact List.mem_cons_of_mem _ (ih k v h)

theorem aset_self_invariant {α : Type} (l : List (Nat × α)) (k : Nat) (v : α)
    (h : alookup l k = some v) (k2 : Nat) : alookup (aset l k v) k2 = alookup l k2 := by
  by_cases hk : k2 = k
  · subst hk
    rw [alookup_aset_self, h]
  · exact alookup_aset_ne l k k2 v hk

theorem aerase_of_not_mem {α : Type} :
    ∀ (l : List (Nat × α)) (k : Nat), k ∉ l.map Prod.fst → aerase l k = l := by
  intro l
  induction l with
  | nil => intro k _; simp [aerase]
  | cons p rest ih =>
    intro k hk
    simp only [List.map_cons, List.mem_cons] at hk
    push_neg at hk
    have h1 : ¬(p.1 = k) := fun hq => hk.1 hq.symm
    have h2 := ih k hk.2
    simp only [aerase] at h2 ⊢
    rw [List.filter_cons, if_pos (by simp [h1]), h2]

theorem tvSetChecked_frame (s : TvState) (item : Nat) (b : Bool) :
    frameOf (tvSetChecked s item b).1 = frameOf s ∧
    (tvSetChecked s item b).1.checked = s.checked := by
  cases h : alookup s.item2Info item with
  | none => simp [tvSetChecked, h]
  | some info => simp [tvSetChecked, h, frameOf]

theorem nativeSync_transfer (m : TreeModelSig) (s s2 : TvState)
    (hsync : NativeSync m s) (hi : s2.item2Info = s.item2Info)
    (hc : s2.checked = s.checked)
    (hn : ∀ h0, alookup s2.nativeChecked h0 = alookup s.nativeChecked h0) :
    NativeSync m s2 := by
  intro x info hx
  rw [hi] at hx
  rw [hn, hc]
  exact hsync x info hx

/-- `applyCheckStateRecursive` touches only the native check-state
images. -/
theorem acsr_pres (m : TreeModelSig) : ∀ (fuel : Nat),
    (∀ s item, frameOf (applyCheckStateRecursive m s item fuel).1 = frameOf s ∧
      (applyCheckStateRecursive m s item fuel).1.checked = s.checked) ∧
    (∀ s cs, frameOf (acsrAux m s cs fuel).1 = frameOf s ∧
      (acsrAux m s cs fuel).1.checked = s.checked) := by
  intro fuel
  induction fuel with
  | zero =>
    refine ⟨fun s item => by simp [applyCheckStateRecursive], fun s cs => ?_⟩
    cases cs with
    | nil => simp [acsrAux]
    | cons c rest => simp [acsrAux]
  | succ fuel ih =>
    constructor
    · intro s item
      simp only [applyCheckStateRecursive]
      by_cases hc : m.checkable item
      · simp only [hc, if_true]
        have h1 := tvSetChecked_frame s item (s.checked item)
        have h2 := ih.2 (tvSetChecked s item (s.checked item)).1 (m.children item)
        exact ⟨h2.1.trans h1.1, h2.2.trans h1.2⟩
      · simp only [hc, if_false]
        exact ih.2 s (m.children item)
    · intro s cs
      cases cs with
      | nil => simp [acsrAux]
      | cons c rest =>
        simp only [acsrAux]
        by_cases hr : (alookup s.item2Info c).isSome
        · simp only [hr, if_true]
          generalize hacs : applyCheckStateRecursive m s c fuel = r at *
          obtain ⟨s1, o⟩ := r
          have hp1 : frameOf s1 = frameOf s ∧ s1.checked = s.checked := by
            have h := ih.1 s c
            rw [hacs] at h
            exact h
          cases o with
          | ok u =>
            have h2 := ih.2 s1 rest
            exact ⟨h2.1.trans hp1.1, h2.2.trans hp1.2⟩
          | err e => exact hp1
          | crash => exact hp1
          | nofuel => exact hp1
        · simp only [hr, if_false]
          exact ih.2 s rest

/-- On a state where every realized item's native check image already
agrees with the model, `applyCheckStateRecursive` changes no native
check image (it re-writes the values already present). -/
theorem acsr_noop (m : TreeModelSig) : ∀ (fuel : Nat),
    (∀ s item, NativeSync m s →
      ∀ h0, alookup (applyCheckStateRecursive m s item fuel).1.nativeChecked h0 =
        alookup s.nativeChecked h0) ∧
    (∀ s cs, NativeSync m s →
      ∀ h0, alookup (acsrAux m s cs fuel).1.nativeChecked h0 =
        alookup s.nativeChecked h0) := by
  intro fuel
  induction fuel with
  | zero =>
    refine ⟨fun s item hsync h0 => by simp [applyCheckStateRecursive], fun s cs hsync h0 => ?_⟩
    cases cs with
    | nil => simp [acsrAux]
    | cons c rest => simp [acsrAux]
  | succ fuel ih =>
    constructor
    · intro s item hsync h0
      simp only [applyCheckStateRecursive]
      by_cases hc : m.checkable item
      · simp only [hc, if_true]
        cases hreg : alookup s.item2Info item with
        | none =>
          simp only [tvSetChecked, hreg]
          exact ih.2 s (m.children item) hsync h0
        | some info =>
          simp only [tvSetChecked, hreg]
          have hcur : alookup s.nativeChecked info.handle = some (s.checked item) := by
            have h := hsync item info hreg
            rwa [hc, Bool.true_and] at h
          have hpt : ∀ h1, alookup
              (aset s.nativeChecked info.handle (s.checked item)) h1 =
              alookup s.nativeChecked h1 :=
            aset_self_invariant s.nativeChecked info.handle (s.checked item) hcur
          have hsync2 : NativeSync m
              { s with nativeChecked := aset s.nativeChecked info.handle (s.checked item) } :=
            nativeSync_transfer m s _ hsync rfl rfl hpt
          have h2 := ih.2
            { s with nativeChecked := aset s.nativeChecked info.handle (s.checked item) }
            (m.children item) hsync2 h0
          rw [h2, hpt]
      · simp only [hc, if_false]
        exact ih.2 s (m.children item) hsync h0
    · intro s cs hsync h0
      cases cs with
      | nil => simp [acsrAux]
      | cons c rest =>
        simp only [acsrAux]
        by_cases hr : (alookup s.item2Info c).isSome
        · simp only [hr, if_true]
          generalize hacs : applyCheckStateRecursive m s c fuel = r at *
          obtain ⟨s1, o⟩ := r
          have hpt : ∀ h1, alookup s1.nativeChecked h1 = alookup s.nativeChecked h1 := by
            intro h1
            have h := ih.1 s c hsync h1
            rw [hacs] at h
            exact h
          have hfr : frameOf s1 = frameOf s ∧ s1.checked = s.checked := by
            have h := (acsr_pres m fuel).1 s c
            rw [hacs] at h
            exact h
          have hsync1 : NativeSync m s1 :=
            nativeSync_transfer m s s1 hsync (congrArg (fun t => t.1) hfr.1) hfr.2 hpt
          cases o with
          | ok u => rw [ih.2 s1 rest hsync1 h0, hpt]
          | err e => exact hpt h0
          | crash => exact hpt h0
          | nofuel => exact hpt h0
        · simp only [hr, if_false]
          exact ih.2 s rest hsync h0

theorem nativeSyncB_sound (m : TreeModelSig) (s : TvState)
    (h : nativeSyncB m s = true) : NativeSync m s := by
  intro x info hx
  have hmem := alookup_mem s.item2Info x info hx
  have := List.all_eq_true.1 h (x, info) hmem
  simpa using this

theorem handlesBelowB_sound (s : TvState) (h : handlesBelowB s = true) :
    ∀ x info, alookup s.item2Info x = some info → info.handle < s.nextHandle := by
  intro x info hx
  have hmem := alookup_mem s.item2Info x info hx
  have := List.all_eq_true.1 h (x, info) hmem
  simpa using this

/-- Under lazy population, `insertItemAfter` realizes only the item
itself, so empty realized-children maps stay empty everywhere. -/
theorem iIA_lazy_pres (m : TreeModelSig) :
    ∀ (fuel : Nat) (s : TvState) (item hA : Nat), s.lazyPopulation = true →
      AllEmptyChildren s →
      AllEmptyChildren (insertItemAfter m s item hA fuel).1 ∧
      (insertItemAfter m s item hA fuel).1.lazyPopulation = true := by
  intro fuel s item hA hlazy hall
  cases fuel with
  | zero => exact ⟨hall, hlazy⟩
  | succ fuel =>
    simp only [insertItemAfter, hlazy, if_true]
    split
    · exact ⟨hall, hlazy⟩
    · constructor
      · intro it info h
        by_cases hit : it = item
        · subst hit
          rw [alookup_aset_self] at h
          injection h with h2
          rw [← h2]
        · rw [alookup_aset_ne _ _ _ _ hit] at h
          exact hall it info h
      · simp [hlazy]

theorem insertRootsAux_lazy_pres (m : TreeModelSig) :
    ∀ (rs : List Nat) (fuel : Nat) (s : TvState), s.lazyPopulation = true →
      AllEmptyChildren s →
      AllEmptyChildren (insertRootsAux m s rs fuel).1 ∧
      (insertRootsAux m s rs fuel).1.lazyPopulation = true := by
  intro rs
  induction rs with
  | nil => intro fuel s h1 h2; exact ⟨h2, h1⟩
  | cons r rest ih =>
    intro fuel s h1 h2
    simp only [insertRootsAux, insertItem]
    generalize hins : insertItemAfter m s r TVI_FIRST fuel = res
    obtain ⟨s1, o⟩ := res
    have hp := iIA_lazy_pres m fuel s r TVI_FIRST h1 h2
    rw [hins] at hp
    cases o with
    | ok h => exact ih fuel s1 hp.2 hp.1
    | err e => exact hp
    | crash => exact hp
    | nofuel => exact hp

theorem resetItems_lazy_allEmpty (m : TreeModelSig) (s : TvState) (fuel : Nat)
    (hlazy : s.lazyPopulation = true) :
    AllEmptyChildren (resetItems m s fuel).1 := by
  simp only [resetItems, clearItems]
  exact (insertRootsAux_lazy_pres m m.roots.reverse fuel
    { s with item2Info := [], handle2Item := [] } hlazy
    (fun it info h => by simp [alookup] at h)).1

/-- The flat realization performed by the `insertChildren` loop under
lazy population: each listed item is registered with a fresh handle, an
empty realized-children map and its model check state as the native
state image; the parent's `child2Handle` gains exactly those items; all
other registry entries and all pre-existing native images survive. -/
theorem lazyInsertLoop (m : TreeModelSig) :
    ∀ (cs : List Nat) (fuel : Nat) (s : TvState) (parent : Nat) (pinfo : ItemInfo),
      s.lazyPopulation = true →
      alookup s.item2Info parent = some pinfo →
      (∀ c ∈ cs, m.parent c = some parent) →
      (∀ c ∈ cs, alookup s.item2Info c = none) →
      (∀ c ∈ cs, c ∉ pinfo.child2Handle.map Prod.fst) →
      cs.Nodup → parent ∉ cs →
      (insertChildrenAux m s parent true cs fuel).2 = Out.ok () →
      ((insertChildrenAux m s parent true cs fuel).1.lazyPopulation = true ∧
       (insertChildrenAux m s parent true cs fuel).1.checked = s.checked ∧
       (insertChildrenAux m s parent true cs fuel).1.checkedEvents = s.checkedEvents ∧
       s.nextHandle ≤ (insertChildrenAux m s parent true cs fuel).1.nextHandle ∧
       (∃ ch, alookup (insertChildrenAux m s parent true cs fuel).1.item2Info parent =
          some ⟨pinfo.handle, ch⟩ ∧
          ch.map Prod.fst = cs.reverse ++ pinfo.child2Handle.map Prod.fst) ∧
       (∀ c ∈ cs, ∃ infoc,
          alookup (insertChildrenAux m s parent true cs fuel).1.item2Info c = some infoc ∧
          infoc.child2Handle = [] ∧ s.nextHandle ≤ infoc.handle ∧
          infoc.handle < (insertChildrenAux m s parent true cs fuel).1.nextHandle ∧
          alookup (insertChildrenAux m s parent true cs fuel).1.nativeChecked infoc.handle =
            some (m.checkable c && s.checked c)) ∧
       (∀ x, x ∉ cs → x ≠ parent →
          alookup (insertChildrenAux m s parent true cs fuel).1.item2Info x =
            alookup s.item2Info x) ∧
       (∀ h0, h0 < s.nextHandle →
          alookup (insertChildrenAux m s parent true cs fuel).1.nativeChecked h0 =
            alookup s.nativeChecked h0)) := by
  intro cs
  induction cs with
  | nil =>
    intro fuel s parent pinfo hlazy hpar hkids hfresh hnew hnd hpn hok
    have heq : insertChildrenAux m s parent true [] fuel = (s, Out.ok ()) := by
      simp [insertChildrenAux]
    rw [heq]
    exact ⟨hlazy, rfl, rfl, le_refl _, ⟨pinfo.child2Handle, hpar, rfl⟩,
      fun c hc => absurd hc (List.not_mem_nil c), fun x _ _ => rfl, fun h0 _ => rfl⟩
  | cons c rest ih =>
    intro fuel s parent pinfo hlazy hpar hkids hfresh hnew hnd hpn hok
    cases fuel with
    | zero => simp [insertChildrenAux] at hok
    | succ fuel =>
      cases fuel with
      | zero => simp [insertChildrenAux, insertItemAfter] at hok
      | succ fuel =>
        have hparc : m.parent c = some parent := hkids c (List.mem_cons_self c rest)
        have hfreshc : alookup s.item2Info c = none := hfresh c (List.mem_cons_self c rest)
        have hcp : c ≠ parent := fun h => hpn (h ▸ List.mem_cons_self c rest)
        have hcrest : c ∉ rest := (List.nodup_cons.1 hnd).1
        have hins : insertItemAfter m s c TVI_FIRST (fuel + 1) =
            ({ s with
                nextHandle := s.nextHandle + 1,
                item2Info := aset s.item2Info c
                  ({ handle := s.nextHandle, child2Handle := [] }),
                handle2Item := aset s.handle2Item s.nextHandle c,
                nativeChecked := aset s.nativeChecked s.nextHandle
                  (m.checkable c && s.checked c) }, Out.ok s.nextHandle) := by
          simp [insertItemAfter, hparc, hpar, hlazy]
        simp only [insertChildrenAux, hins, if_true] at hok ⊢
        set sA : TvState :=
          { s with
              nextHandle := s.nextHandle + 1,
              item2Info := aset s.item2Info c
                ({ handle := s.nextHandle, child2Handle := [] }),
              handle2Item := aset s.handle2Item s.nextHandle c,
              nativeChecked := aset s.nativeChecked s.nextHandle
                (m.checkable c && s.checked c) } with hsA
        have hparA : alookup sA.item2Info parent = some pinfo := by
          rw [hsA]
          simpa [alookup_aset_ne _ _ _ _ (fun h => hcp h.symm)] using hpar
        set pinfo2 : ItemInfo :=
          { handle := pinfo.handle, child2Handle := aset pinfo.child2Handle c s.nextHandle }
          with hpinfo2
        have haddB : addChildHandle sA parent c s.nextHandle =
            { sA with item2Info := aset sA.item2Info parent pinfo2 } := by
          simp [addChildHandle, hparA, hpinfo2]
        rw [haddB] at hok ⊢
        set sB : TvState :=
          { sA with item2Info := aset sA.item2Info parent pinfo2 } with hsB
        have hparB : alookup sB.item2Info parent = some pinfo2 := by
          rw [hsB]
          exact alookup_aset_self _ _ _
        have hBchecked : sB.checked = s.checked := by rw [hsB, hsA]
        have hBevents : sB.checkedEvents = s.checkedEvents := by rw [hsB, hsA]
        have hBnext : sB.nextHandle = s.nextHandle + 1 := by rw [hsB, hsA]
        have hBlazy : sB.lazyPopulation = true := by rw [hsB, hsA]; exact hlazy
        have hBnative : sB.nativeChecked =
            aset s.nativeChecked s.nextHandle (m.checkable c && s.checked c) := by
          rw [hsB, hsA]
        have hBc : alookup sB.item2Info c =
            some ({ handle := s.nextHandle, child2Handle := [] }) := by
          rw [hsB, alookup_aset_ne _ _ _ _ hcp, hsA, alookup_aset_self]
        have hrestB : ∀ x ∈ rest, alookup sB.item2Info x = alookup s.item2Info x := by
          intro x hx
          have hxc : x ≠ c := by
            intro h
            subst h
            exact hcrest hx
          have hxp : x ≠ parent := fun h => hpn (h ▸ List.mem_cons_of_mem c hx)
          rw [hsB]
          rw [alookup_aset_ne _ _ _ _ hxp, hsA]
          exact alookup_aset_ne _ _ _ _ hxc
        have hkeys2 : pinfo2.child2Handle.map Prod.fst =
            c :: pinfo.child2Handle.map Prod.fst := by
          rw [hpinfo2]
          simp only [aset]
          rw [aerase_of_not_mem _ _ (hnew c (List.mem_cons_self c rest))]
          simp
        have hres := ih (fuel + 1) sB parent pinfo2 hBlazy hparB
          (fun x hx => hkids x (List.mem_cons_of_mem c hx))
          (fun x hx => (hrestB x hx).trans (hfresh x (List.mem_cons_of_mem c hx)))
          (fun x hx => by
            rw [hkeys2]
            intro hmem
            rcases List.mem_cons.1 hmem with h | h
            · exact hcrest (h ▸ hx)
            · exact hnew x (List.mem_cons_of_mem c hx) h)
          (List.nodup_cons.1 hnd).2
          (fun h => hpn (List.mem_cons_of_mem c h))
          hok
        obtain ⟨hq1, hq2, hq3, hq4, ⟨ch2, hch2, hch2keys⟩, hq6, hq7, hq8⟩ := hres
        refine ⟨hq1, hq2.trans hBchecked, hq3.trans hBevents, ?_, ?_, ?_, ?_, ?_⟩
        · rw [hBnext] at hq4
          omega
        · refine ⟨ch2, by simpa [hpinfo2] using hch2, ?_⟩
          rw [hch2keys, hkeys2]
          simp
        · intro x hx
          rcases List.mem_cons.1 hx with hxc | hxr
          · refine ⟨{ handle := s.nextHandle, child2Handle := [] }, ?_, rfl, le_refl _, ?_, ?_⟩
            · rw [hxc, hq7 c hcrest hcp, hBc]
            · rw [hBnext] at hq4
              simp only []
              omega
            · have hpres := hq8 s.nextHandle (by rw [hBnext]; omega)
              rw [hxc]
              simp only []
              rw [hpres, hBnative]
              exact alookup_aset_self _ _ _
          · obtain ⟨infoc, hic1, hic2, hic3, hic4, hic5⟩ := hq6 x hxr
            refine ⟨infoc, hic1, hic2, ?_, hic4, ?_⟩
            · rw [hBnext] at hic3
              omega
            · rw [hic5, hBchecked]
        · intro x hx1 hx2
          have hxc : x ≠ c := fun h => hx1 (h ▸ List.mem_cons_self c rest)
          have hxr : x ∉ rest := fun h => hx1 (List.mem_cons_of_mem c h)
          rw [hq7 x hxr hx2, hsB, alookup_aset_ne _ _ _ _ hx2, hsA]
          exact alookup_aset_ne _ _ _ _ hxc
        · intro h0 hh0
          have hpres := hq8 h0 (by rw [hBnext]; omega)
          rw [hpres, hBnative]
          exact alookup_aset_ne _ _ _ _ (by omega)

/-- C6 (amended): after attach and reset of a lazily-populated model,
every realized item's realized-children map is empty; processing the
about-to-expand notification for a realized item with an empty
realized-children map realizes exactly its immediate children (each
getting an empty map of its own) and leaves every other registry entry
and all model check flags untouched; each newly realized child's native
check image is its *own* model state (`checkable && checked`) — the
item's state reaches it only when the model flags already agree. -/
theorem C6_lazy_population_amended (m : TreeModelSig) (s : TvState)
    (hItem item fuel : Nat) (info : ItemInfo) :
    (s.lazyPopulation = true → AllEmptyChildren (resetItems m s fuel).1) ∧
    (s.lazyPopulation = true →
     alookup s.handle2Item hItem = some item →
     alookup s.item2Info item = some info →
     info.child2Handle = [] →
     (m.children item).Nodup →
     (∀ c ∈ m.children item,
        m.parent c = some item ∧ alookup s.item2Info c = none ∧ c ≠ item) →
     nativeSyncB m s = true →
     handlesBelowB s = true →
     (insertChildren m s item fuel).2 = Out.ok () →
     ((∀ c ∈ m.children item, ∃ infoc,
         alookup (itemExpandingHandler m s hItem fuel).1.item2Info c = some infoc ∧
         infoc.child2Handle = [] ∧
         alookup (itemExpandingHandler m s hItem fuel).1.nativeChecked infoc.handle =
           some (m.checkable c && s.checked c)) ∧
      (∃ ch, alookup (itemExpandingHandler m s hItem fuel).1.item2Info item =
         some ⟨info.handle, ch⟩ ∧ ch.map Prod.fst = m.children item) ∧
      (∀ x, x ∉ m.children item → x ≠ item →
         alookup (itemExpandingHandler m s hItem fuel).1.item2Info x =
           alookup s.item2Info x) ∧
      (itemExpandingHandler m s hItem fuel).1.checked = s.checked)) := by
  constructor
  · intro hlazy
    exact resetItems_lazy_allEmpty m s fuel hlazy
  · intro hlazy hh2i hinfo hempty hnodup hkids hsyncB hbelowB hinsok
    have hsync := nativeSyncB_sound m s hsyncB
    have hbelow := handlesBelowB_sound s hbelowB
    have hAux : insertChildren m s item fuel =
        insertChildrenAux m s item true ((m.children item).reverse) fuel := by
      simp [insertChildren, hinfo]
    rw [hAux] at hinsok
    have hloop := lazyInsertLoop m ((m.children item).reverse) fuel s item info hlazy hinfo
      (fun c hc => (hkids c (List.mem_reverse.1 hc)).1)
      (fun c hc => (hkids c (List.mem_reverse.1 hc)).2.1)
      (fun c hc => by rw [hempty]; simp)
      (List.nodup_reverse.2 hnodup)
      (fun hmem => (hkids item (List.mem_reverse.1 hmem)).2.2 rfl)
      hinsok
    set s1 := (insertChildrenAux m s item true ((m.children item).reverse) fuel).1 with hs1
    obtain ⟨hL1, hL2, hL3, hL4, ⟨ch2, hch2, hch2keys⟩, hL6, hL7, hL8⟩ := hloop
    have hsync1 : NativeSync m s1 := by
      intro x infox hx
      by_cases hxch : x ∈ m.children item
      · obtain ⟨infoc, hic1, hic2, hic3, hic4, hic5⟩ := hL6 x (List.mem_reverse.2 hxch)
        rw [hx] at hic1
        injection hic1 with he
        rw [← he] at hic5
        rw [hL2]
        exact hic5
      · by_cases hxi : x = item
        · subst hxi
          rw [hch2] at hx
          injection hx with he
          rw [← he]
          have hh := hL8 info.handle (hbelow x info hinfo)
          rw [hL2]
          show alookup s1.nativeChecked info.handle = some (m.checkable x && s.checked x)
          rw [hh]
          exact hsync x info hinfo
        · have hxp := hL7 x (fun hmem => hxch (List.mem_reverse.1 hmem)) hxi
          rw [hxp] at hx
          have hh := hL8 infox.handle (hbelow x infox hx)
          rw [hL2, hh]
          exact hsync x infox hx
    have hpair : insertChildrenAux m s item true ((m.children item).reverse) fuel =
        (s1, Out.ok ()) := by
      have h0 : insertChildrenAux m s item true ((m.children item).reverse) fuel =
          ((insertChildrenAux m s item true ((m.children item).reverse) fuel).1,
           (insertChildrenAux m s item true ((m.children item).reverse) fuel).2) := rfl
      rw [hinsok] at h0
      rw [h0, ← hs1]
    have hred : itemExpandingHandler m s hItem fuel =
        applyCheckStateRecursive m s1 item fuel := by
      simp only [itemExpandingHandler, hlazy, if_true, hh2i, hinfo, hempty,
        List.length_nil, if_pos]
      rw [hAux, hpair]
    rw [hred]
    have hpresE := (acsr_pres m fuel).1 s1 item
    have hEi : (applyCheckStateRecursive m s1 item fuel).1.item2Info = s1.item2Info :=
      congrArg (fun t => t.1) hpresE.1
    have hEc : (applyCheckStateRecursive m s1 item fuel).1.checked = s1.checked :=
      hpresE.2
    have hEn := (acsr_noop m fuel).1 s1 item hsync1
    refine ⟨?_, ?_, ?_, ?_⟩
    · intro c hc
      obtain ⟨infoc, hic1, hic2, hic3, hic4, hic5⟩ := hL6 c (List.mem_reverse.2 hc)
      exact ⟨infoc, by rw [hEi]; exact hic1, hic2, by rw [hEn]; exact hic5⟩
    · refine ⟨ch2, by rw [hEi]; exact hch2, ?_⟩
      rw [hch2keys, hempty]
      simp
    · intro x hx1 hx2
      rw [hEi]
      exact hL7 x (fun hmem => hx1 (List.mem_reverse.1 hmem)) hx2
    · rw [hEc, hL2]

/-- Witness for C6 (amended): expanding the realized lazy root R(0)
realizes exactly A(1) and B(2). -/
theorem C6_lazy_population_amended_witness :
    ∃ ch, alookup
        (itemExpandingHandler mL (resetItems mL (s0 true) 20).1 1 20).1.item2Info 0 =
      some ⟨1, ch⟩ ∧ ch.map Prod.fst = mL.children 0 :=
  ((C6_lazy_population_amended mL (resetItems mL (s0 true) 20).1 1 0 20
      ⟨1, []⟩).2 (by decide) (by decide) (by decide) (by decide) (by decide)
      (by decide) (by decide) (by decide) (by decide)).2.1

/-- C6 counterexample: R(0) is model-checked while its unrealized child
A(1) is not; expanding R realizes A with native state `false` (its own
model flag), not R's state `true` — the claim's "push the item's checked
state down to the newly realized children" fails. -/
theorem C6_lazy_push_cex :
    ((itemExpandingHandler mL (resetItems mL (s0r true) 20).1 1 20).2 = Out.ok ()) ∧
    ((resetItems mL (s0r true) 20).1.checked 0 = true) ∧
    (alookup (resetItems mL (s0r true) 20).1.nativeChecked 1 = some true) ∧
    ((resetItems mL (s0r true) 20).1.checked 1 = false) ∧
    (alookup (itemExpandingHandler mL (resetItems mL (s0r true) 20).1 1 20).1.item2Info 1 =
      some ({ handle := 3, child2Handle := [] } : ItemInfo)) ∧
    (alookup
        (itemExpandingHandler mL (resetItems mL (s0r true) 20).1 1 20).1.nativeChecked 3 =
      some false) := by
  decide

/- ------------------------------------------------------------------
C5, C9: registry invariant preservation. -/

theorem addChildHandle_item2Info_ne (s : TvState) (parent c h x : Nat)
    (hx : x ≠ parent) :
    alookup (addChildHandle s parent c h).item2Info x = alookup s.item2Info x := by
  cases hp : alookup s.item2Info parent with
  | none => simp [addChildHandle, hp]
  | some info => simp [addChildHandle, hp, alookup_aset_ne _ _ _ _ hx]

theorem addChildHandle_parent (s : TvState) (parent c h : Nat) (infop : ItemInfo)
    (hp : alookup s.item2Info parent = some infop) :
    alookup (addChildHandle s parent c h).item2Info parent =
      some ⟨infop.handle, aset infop.child2Handle c h⟩ := by
  simp [addChildHandle, hp, alookup_aset_self]

theorem addChildHandle_none (s : TvState) (parent c h : Nat)
    (hp : alookup s.item2Info parent = none) : addChildHandle s parent c h = s := by
  simp [addChildHandle, hp]

theorem addChildHandle_frame (s : TvState) (parent c h : Nat) :
    (addChildHandle s parent c h).handle2Item = s.handle2Item ∧
    (addChildHandle s parent c h).nextHandle = s.nextHandle ∧
    (addChildHandle s parent c h).lazyPopulation = s.lazyPopulation := by
  cases hp : alookup s.item2Info parent with
  | none => simp [addChildHandle, hp]
  | some info => simp [addChildHandle, hp]

theorem addChildHandle_hstable (s : TvState) (parent c h x : Nat) (infox : ItemInfo)
    (hx : alookup s.item2Info x = some infox) :
    ∃ infoy, alookup (addChildHandle s parent c h).item2Info x = some infoy ∧
      infoy.handle = infox.handle := by
  by_cases hxp : x = parent
  · subst hxp
    exact ⟨⟨infox.handle, aset infox.child2Handle c h⟩,
      addChildHandle_parent s x c h infox hx, rfl⟩
  · exact ⟨infox, (addChildHandle_item2Info_ne s parent c h x hxp).trans hx, rfl⟩

theorem addChildHandle_regInv (s : TvState) (parent c h : Nat) (hInv : RegInv s) :
    RegInv (addChildHandle s parent c h) := by
  obtain ⟨⟨hb1, hb2⟩, hf⟩ := hInv
  have hh2 := (addChildHandle_frame s parent c h).1
  refine ⟨⟨?_, ?_⟩, ?_⟩
  · intro it info hit
    rw [hh2]
    by_cases hip : it = parent
    · subst hip
      cases hp : alookup s.item2Info it with
      | none =>
        rw [addChildHandle_none s it c h hp] at hit
        rw [hp] at hit
        cases hit
      | some infop =>
        rw [addChildHandle_parent s it c h infop hp] at hit
        injection hit with he
        rw [← he]
        exact hb1 it infop hp
    · rw [addChildHandle_item2Info_ne s parent c h it hip] at hit
      exact hb1 it info hit
  · intro h0 it hit
    rw [hh2] at hit
    obtain ⟨info, hinfo, hhandle⟩ := hb2 h0 it hit
    obtain ⟨infoy, hy1, hy2⟩ := addChildHandle_hstable s parent c h it info hinfo
    exact ⟨infoy, hy1, hy2.trans hhandle⟩
  · intro h0 it hit
    rw [hh2] at hit
    rw [(addChildHandle_frame s parent c h).2.1]
    exact hf h0 it hit

/-- Registering a fresh item with a fresh handle preserves the registry
invariant. -/
theorem register_regInv (m : TreeModelSig) (s : TvState) (item : Nat)
    (hInv : RegInv s) (hfresh : alookup s.item2Info item = none) :
    RegInv { s with
      nextHandle := s.nextHandle + 1,
      item2Info := aset s.item2Info item ({ handle := s.nextHandle, child2Handle := [] }),
      handle2Item := aset s.handle2Item s.nextHandle item,
      nativeChecked := aset s.nativeChecked s.nextHandle
        (m.checkable item && s.checked item) } := by
  obtain ⟨⟨hb1, hb2⟩, hf⟩ := hInv
  refine ⟨⟨?_, ?_⟩, ?_⟩
  · intro it info hit
    by_cases hii : it = item
    · subst hii
      rw [alookup_aset_self] at hit
      injection hit with he
      rw [← he]
      exact alookup_aset_self _ _ _
    · rw [alookup_aset_ne _ _ _ _ hii] at hit
      have hold := hb1 it info hit
      have hlt := hf info.handle it hold
      rw [alookup_aset_ne _ _ _ _ (by omega)]
      exact hold
  · intro h0 it hit
    by_cases hh0 : h0 = s.nextHandle
    · subst hh0
      rw [alookup_aset_self] at hit
      injection hit with he
      rw [← he]
      exact ⟨⟨s.nextHandle, []⟩, alookup_aset_self _ _ _, rfl⟩
    · rw [alookup_aset_ne _ _ _ _ hh0] at hit
      obtain ⟨info, hinfo, hhandle⟩ := hb2 h0 it hit
      have hii : it ≠ item := by
        intro h
        subst h
        rw [hfresh] at hinfo
        cases hinfo
      exact ⟨info, by rw [alookup_aset_ne _ _ _ _ hii]; exact hinfo, hhandle⟩
  · intro h0 it hit
    dsimp only at hit ⊢
    by_cases hh0 : h0 = s.nextHandle
    · omega
    · rw [alookup_aset_ne _ _ _ _ hh0] at hit
      have := hf h0 it hit
      omega

/-- The recursive insertion pass preserves the registry invariant,
confines its registry changes to the inserted subtree, keeps the handles
of existing entries, only adds handle-registry entries, and — given
fuel and a resolvable parent — registers the item in both registries
with the fresh handle. -/
theorem insertPreserve (m : TreeModelSig) : ∀ (fuel : Nat),
    (∀ s item hA, RegInv s →
      (subtreeItems m s.lazyPopulation item fuel).Nodup →
      (∀ x ∈ subtreeItems m s.lazyPopulation item fuel, alookup s.item2Info x = none) →
      InsOut (subtreeItems m s.lazyPopulation item fuel) none s
        (insertItemAfter m s item hA fuel).1 ∧
      (∀ g, fuel = g + 1 → parentOkB m s item = true →
        ∃ infoI,
          alookup (insertItemAfter m s item hA fuel).1.item2Info item = some infoI ∧
          infoI.handle = s.nextHandle ∧
          alookup (insertItemAfter m s item hA fuel).1.handle2Item s.nextHandle
            = some item)) ∧
    (∀ cs s parent, RegInv s →
      (stAux m s.lazyPopulation cs fuel).Nodup →
      (∀ x ∈ stAux m s.lazyPopulation cs fuel, alookup s.item2Info x = none) →
      InsOut (stAux m s.lazyPopulation cs fuel) (some parent) s
        (insertChildrenAux m s parent true cs fuel).1) := by
  intro fuel
  induction fuel with
  | zero =>
    constructor
    · intro s item hA hInv hnd hfr
      have heq : insertItemAfter m s item hA 0 = (s, Out.nofuel) := by
        simp [insertItemAfter]
      constructor
      · rw [heq]
        exact ⟨hInv, fun x _ _ => rfl, fun x infox hx => ⟨infox, hx, rfl⟩,
          fun h0 x hx => hx, le_refl _, rfl⟩
      · intro g hg
        exact absurd hg (by omega)
    · intro cs s parent hInv hnd hfr
      cases cs with
      | nil =>
        have heq : insertChildrenAux m s parent true [] 0 = (s, Out.ok ()) := by
          simp [insertChildrenAux]
        rw [heq]
        exact ⟨hInv, fun x _ _ => rfl, fun x infox hx => ⟨infox, hx, rfl⟩,
          fun h0 x hx => hx, le_refl _, rfl⟩
      | cons c rest =>
        have heq : insertChildrenAux m s parent true (c :: rest) 0 = (s, Out.nofuel) := by
          simp [insertChildrenAux]
        rw [heq]
        exact ⟨hInv, fun x _ _ => rfl, fun x infox hx => ⟨infox, hx, rfl⟩,
          fun h0 x hx => hx, le_refl _, rfl⟩
  | succ fuel ih =>
    constructor
    · intro s item hA hInv hnd hfr
      by_cases hbad : (match m.parent item with
          | some p => (alookup s.item2Info p).isNone
          | none => false) = true
      · have heq : insertItemAfter m s item hA (fuel + 1) =
            (s, Out.err "invalid parent") := by
          simp only [insertItemAfter]
          rw [if_pos hbad]
        constructor
        · rw [heq]
          exact ⟨hInv, fun x _ _ => rfl, fun x infox hx => ⟨infox, hx, rfl⟩,
            fun h0 x hx => hx, le_refl _, rfl⟩
        · intro g hg hpOk
          exfalso
          unfold parentOkB at hpOk
          cases hpar : m.parent item with
          | none => rw [hpar] at hbad; simp at hbad
          | some p =>
            rw [hpar] at hbad hpOk
            rw [Option.isNone_iff_eq_none] at hbad
            dsimp only at hpOk
            rw [hbad] at hpOk
            simp at hpOk
      · have hitem0 : alookup s.item2Info item = none := by
          refine hfr item ?_
          simp [subtreeItems]
        set s1 : TvState := { s with
            nextHandle := s.nextHandle + 1,
            item2Info := aset s.item2Info item
              ({ handle := s.nextHandle, child2Handle := [] }),
            handle2Item := aset s.handle2Item s.nextHandle item,
            nativeChecked := aset s.nativeChecked s.nextHandle
              (m.checkable item && s.checked item) } with hs1
        have hInv1 : RegInv s1 := register_regInv m s item hInv hitem0
        have hs1item : alookup s1.item2Info item =
            some ({ handle := s.nextHandle, child2Handle := [] }) := by
          rw [hs1]; exact alookup_aset_self _ _ _
        have hs1ne : ∀ x, x ≠ item → alookup s1.item2Info x = alookup s.item2Info x := by
          intro x hx
          rw [hs1]; exact alookup_aset_ne _ _ _ _ hx
        have hs1h2self : alookup s1.handle2Item s.nextHandle = some item := by
          rw [hs1]; exact alookup_aset_self _ _ _
        have hs1h2 : ∀ h0 x, alookup s.handle2Item h0 = some x →
            alookup s1.handle2Item h0 = some x := by
          intro h0 x hx
          have hlt := hInv.2 h0 x hx
          rw [hs1]
          rw [alookup_aset_ne _ _ _ _ (by omega)]
          exact hx
        have hs1lazy : s1.lazyPopulation = s.lazyPopulation := by rw [hs1]
        have hs1next : s1.nextHandle = s.nextHandle + 1 := by rw [hs1]
        by_cases hlz : s.lazyPopulation = true
        · have heq : insertItemAfter m s item hA (fuel + 1) =
              (s1, Out.ok s.nextHandle) := by
            simp only [insertItemAfter]
            rw [if_neg hbad, if_pos hlz, hs1]
          have hsub : subtreeItems m s.lazyPopulation item (fuel + 1) = [item] := by
            simp [subtreeItems, hlz]
          constructor
          · rw [heq, hsub]
            refine ⟨hInv1, ?_, ?_, hs1h2, by rw [hs1next]; omega, hs1lazy⟩
            · intro x hx _
              exact hs1ne x (by simpa using hx)
            · intro x infox hx
              have hxi : x ≠ item := fun h => by rw [h, hitem0] at hx; cases hx
              exact ⟨infox, (hs1ne x hxi).trans hx, rfl⟩
          · intro g hg hpOk
            rw [heq]
            exact ⟨_, hs1item, rfl, hs1h2self⟩
        · have hlzf : s.lazyPopulation = false := by
            cases h : s.lazyPopulation
            · rfl
            · exact absurd h hlz
          have hsub : subtreeItems m s.lazyPopulation item (fuel + 1) =
              item :: stAux m s.lazyPopulation ((m.children item).reverse) fuel := by
            simp [subtreeItems, hlzf]
          rw [hsub] at hnd hfr
          have hndt := (List.nodup_cons.1 hnd).2
          have hnit : item ∉ stAux m s.lazyPopulation ((m.children item).reverse) fuel :=
            (List.nodup_cons.1 hnd).1
          have hfrt : ∀ x ∈ stAux m s1.lazyPopulation ((m.children item).reverse) fuel,
              alookup s1.item2Info x = none := by
            intro x hx
            rw [hs1lazy] at hx
            have hxi : x ≠ item := fun h => hnit (h ▸ hx)
            rw [hs1ne x hxi]
            exact hfr x (List.mem_cons_of_mem item hx)
          have hndt2 : (stAux m s1.lazyPopulation ((m.children item).reverse) fuel).Nodup := by
            rw [hs1lazy]; exact hndt
          have hInsA := (ih.2) ((m.children item).reverse) s1 item hInv1 hndt2 hfrt
          rcases haux : insertChildrenAux m s1 item true ((m.children item).reverse) fuel
            with ⟨s2, o⟩
          rw [haux] at hInsA
          dsimp only at hInsA
          have hr : (insertItemAfter m s item hA (fuel + 1)).1 = s2 := by
            simp only [insertItemAfter]
            rw [if_neg hbad, if_neg (by simp [hlzf]), ← hs1, haux]
            cases o <;> rfl
          obtain ⟨inv2, conf2, hst2, h2m2, nm2, lz2⟩ := hInsA
          constructor
          · rw [hsub, hr]
            refine ⟨inv2, ?_, ?_, ?_, ?_, ?_⟩
            · intro x hx _
              have hxi : x ≠ item := fun h => hx (h ▸ List.mem_cons_self _ _)
              have hxt : x ∉ stAux m s1.lazyPopulation ((m.children item).reverse) fuel := by
                rw [hs1lazy]
                exact fun hmem => hx (List.mem_cons_of_mem _ hmem)
              rw [conf2 x hxt (fun p hp => by
                rw [Option.mem_def, Option.some.injEq] at hp
                rw [← hp]
                exact hxi)]
              exact hs1ne x hxi
            · intro x infox hx
              have hxi : x ≠ item := fun h => by rw [h, hitem0] at hx; cases hx
              exact hst2 x infox ((hs1ne x hxi).trans hx)
            · intro h0 x hx
              exact h2m2 h0 x (hs1h2 h0 x hx)
            · rw [hs1next] at nm2
              omega
            · rw [lz2, hs1lazy]
          · intro g hg hpOk
            obtain ⟨infoy, hy1, hy2⟩ := hst2 item _ hs1item
            exact ⟨infoy, by rw [hr]; exact hy1, hy2,
              by rw [hr]; exact h2m2 s.nextHandle item hs1h2self⟩
    · intro cs s parent hInv hnd hfr
      cases cs with
      | nil =>
        have heq : insertChildrenAux m s parent true [] (fuel + 1) = (s, Out.ok ()) := by
          simp [insertChildrenAux]
        rw [heq]
        exact ⟨hInv, fun x _ _ => rfl, fun x infox hx => ⟨infox, hx, rfl⟩,
          fun h0 x hx => hx, le_refl _, rfl⟩
      | cons c rest =>
        have hsub : stAux m s.lazyPopulation (c :: rest) (fuel + 1) =
            subtreeItems m s.lazyPopulation c fuel ++
              stAux m s.lazyPopulation rest fuel := by
          simp [stAux]
        rw [hsub] at hnd hfr
        obtain ⟨hndc, hndr, hdisj⟩ := List.nodup_append.1 hnd
        have hfrc : ∀ x ∈ subtreeItems m s.lazyPopulation c fuel,
            alookup s.item2Info x = none :=
          fun x hx => hfr x (List.mem_append_left _ hx)
        have hfrr : ∀ x ∈ stAux m s.lazyPopulation rest fuel,
            alookup s.item2Info x = none :=
          fun x hx => hfr x (List.mem_append_right _ hx)
        have hL1 := ((ih.1) s c TVI_FIRST hInv hndc hfrc).1
        rcases hic : insertItemAfter m s c TVI_FIRST fuel with ⟨sc, o⟩
        rw [hic] at hL1
        dsimp only at hL1
        obtain ⟨invc, confc, hstc, h2mc, nmc, lzc⟩ := hL1
        cases o with
        | err e =>
          have hr : (insertChildrenAux m s parent true (c :: rest) (fuel + 1)).1 = sc := by
            simp only [insertChildrenAux]
            rw [hic]
          rw [hsub, hr]
          refine ⟨invc, ?_, hstc, h2mc, nmc, lzc⟩
          intro x hx hp
          exact confc x (fun hmem => hx (List.mem_append_left _ hmem)) (by simp)
        | crash =>
          have hr : (insertChildrenAux m s parent true (c :: rest) (fuel + 1)).1 = sc := by
            simp only [insertChildrenAux]
            rw [hic]
          rw [hsub, hr]
          refine ⟨invc, ?_, hstc, h2mc, nmc, lzc⟩
          intro x hx hp
          exact confc x (fun hmem => hx (List.mem_append_left _ hmem)) (by simp)
        | nofuel =>
          have hr : (insertChildrenAux m s parent true (c :: rest) (fuel + 1)).1 = sc := by
            simp only [insertChildrenAux]
            rw [hic]
          rw [hsub, hr]
          refine ⟨invc, ?_, hstc, h2mc, nmc, lzc⟩
          intro x hx hp
          exact confc x (fun hmem => hx (List.mem_append_left _ hmem)) (by simp)
        | ok h =>
          have hr : (insertChildrenAux m s parent true (c :: rest) (fuel + 1)).1 =
              (insertChildrenAux m (addChildHandle sc parent c h) parent true
                rest fuel).1 := by
            simp only [insertChildrenAux]
            rw [hic]
            simp
          have hframe := addChildHandle_frame sc parent c h
          have hBlazy : (addChildHandle sc parent c h).lazyPopulation
              = s.lazyPopulation := by
            rw [hframe.2.2, lzc]
          have hBinv : RegInv (addChildHandle sc parent c h) :=
            addChildHandle_regInv sc parent c h invc
          have hBndr : (stAux m (addChildHandle sc parent c h).lazyPopulation
              rest fuel).Nodup := by
            rw [hBlazy]; exact hndr
          have hBfrr : ∀ x ∈ stAux m (addChildHandle sc parent c h).lazyPopulation
              rest fuel, alookup (addChildHandle sc parent c h).item2Info x = none := by
            intro x hx
            rw [hBlazy] at hx
            have hxc : x ∉ subtreeItems m s.lazyPopulation c fuel :=
              fun hmem => hdisj hmem hx
            by_cases hxp : x = parent
            · subst hxp
              cases hcp : alookup sc.item2Info x with
              | none => rw [addChildHandle_none sc x c h hcp, hcp]
              | some infop =>
                exfalso
                have := confc x hxc (by simp)
                rw [this] at hcp
                rw [hfrr x hx] at hcp
                cases hcp
            · rw [addChildHandle_item2Info_ne sc parent c h x hxp]
              rw [confc x hxc (by simp)]
              exact hfrr x hx
          have hInsB := (ih.2) rest (addChildHandle sc parent c h) parent hBinv hBndr hBfrr
          rcases haux2 : insertChildrenAux m (addChildHandle sc parent c h) parent true
              rest fuel with ⟨s2, o2⟩
          rw [haux2] at hInsB
          dsimp only at hInsB
          obtain ⟨inv2, conf2, hst2, h2m2, nm2, lz2⟩ := hInsB
          have hr2 : (insertChildrenAux m s parent true (c :: rest) (fuel + 1)).1 = s2 := by
            rw [hr, haux2]
          rw [hsub, hr2]
          refine ⟨inv2, ?_, ?_, ?_, ?_, ?_⟩
          · intro x hx hp
            have hxp : x ≠ parent := by
              have := hp parent (by simp)
              exact this
            have hxr : x ∉ stAux m (addChildHandle sc parent c h).lazyPopulation
                rest fuel := by
              rw [hBlazy]
              exact fun hmem => hx (List.mem_append_right _ hmem)
            rw [conf2 x hxr (fun p hp2 => by
              rw [Option.mem_def, Option.some.injEq] at hp2
              rw [← hp2]
              exact hxp)]
            rw [addChildHandle_item2Info_ne sc parent c h x hxp]
            exact confc x (fun hmem => hx (List.mem_append_left _ hmem)) (by simp)
          · intro x infox hx
            obtain ⟨info1, h11, h12⟩ := hstc x infox hx
            obtain ⟨info2, h21, h22⟩ := addChildHandle_hstable sc parent c h x info1 h11
            obtain ⟨info3, h31, h32⟩ := hst2 x info2 h21
            exact ⟨info3, h31, h32.trans (h22.trans h12)⟩
          · intro h0 x hx
            refine h2m2 h0 x ?_
            rw [hframe.1]
            exact h2mc h0 x hx
          · have hBnext : (addChildHandle sc parent c h).nextHandle = sc.nextHandle :=
              hframe.2.1
            rw [hBnext] at nm2
            omega
          · rw [lz2, hBlazy]


/-- Overwriting a registered entry's realized-children map (the handle
unchanged) preserves the registry invariant. -/
theorem childMapSet_regInv (s : TvState) (p : Nat) (pinfo : ItemInfo)
    (c2 : List (Nat × Nat)) (hp : alookup s.item2Info p = some pinfo)
    (hInv : RegInv s) :
    RegInv { s with
      item2Info := aset s.item2Info p ({ pinfo with child2Handle := c2 }) } := by
  obtain ⟨⟨hb1, hb2⟩, hf⟩ := hInv
  refine ⟨⟨?_, ?_⟩, ?_⟩
  · intro it info hit
    dsimp only at hit ⊢
    by_cases hip : it = p
    · subst hip
      rw [alookup_aset_self] at hit
      injection hit with he
      rw [← he]
      exact hb1 it pinfo hp
    · rw [alookup_aset_ne _ _ _ _ hip] at hit
      exact hb1 it info hit
  · intro h0 it hit
    dsimp only at hit ⊢
    obtain ⟨info, hinfo, hh⟩ := hb2 h0 it hit
    by_cases hip : it = p
    · subst hip
      refine ⟨{ pinfo with child2Handle := c2 }, alookup_aset_self _ _ _, ?_⟩
      rw [hp] at hinfo
      injection hinfo with he
      rw [he]
      exact hh
    · exact ⟨info, by rw [alookup_aset_ne _ _ _ _ hip]; exact hinfo, hh⟩
  · intro h0 it hit
    dsimp only at hit ⊢
    exact hf h0 it hit

/-- Deleting an item's entries from both registries together (erasing
the item from `item2Info` and its registered handle from `handle2Item`)
preserves the registry invariant. -/
theorem erasePair_regInv (s : TvState) (item hdl : Nat) (info : ItemInfo)
    (hit : alookup s.item2Info item = some info) (hh : info.handle = hdl)
    (hInv : RegInv s) :
    RegInv { s with
      item2Info := aerase s.item2Info item,
      handle2Item := aerase s.handle2Item hdl } := by
  obtain ⟨⟨hb1, hb2⟩, hf⟩ := hInv
  have hhi : alookup s.handle2Item hdl = some item := by
    rw [← hh]
    exact hb1 item info hit
  refine ⟨⟨?_, ?_⟩, ?_⟩
  · intro it2 info2 h2
    dsimp only at h2 ⊢
    by_cases hii : it2 = item
    · subst hii
      rw [alookup_aerase_self] at h2
      exact Option.noConfusion h2
    · rw [alookup_aerase_ne _ _ _ hii] at h2
      have hmap := hb1 it2 info2 h2
      have hne : info2.handle ≠ hdl := by
        intro he
        rw [he] at hmap
        rw [hmap] at hhi
        injection hhi with he2
        exact hii he2
      rw [alookup_aerase_ne _ _ _ hne]
      exact hmap
  · intro h0 it2 h2
    dsimp only at h2 ⊢
    by_cases hh0 : h0 = hdl
    · subst hh0
      rw [alookup_aerase_self] at h2
      exact Option.noConfusion h2
    · rw [alookup_aerase_ne _ _ _ hh0] at h2
      obtain ⟨info2, hinfo2, hh2⟩ := hb2 h0 it2 h2
      have hii : it2 ≠ item := by
        intro he
        subst he
        rw [hit] at hinfo2
        injection hinfo2 with he2
        rw [← he2] at hh2
        exact hh0 (by rw [← hh2, hh])
      refine ⟨info2, ?_, hh2⟩
      rw [alookup_aerase_ne _ _ _ hii]
      exact hinfo2
  · intro h0 it2 h2
    dsimp only at h2 ⊢
    by_cases hh0 : h0 = hdl
    · subst hh0
      rw [alookup_aerase_self] at h2
      exact Option.noConfusion h2
    · rw [alookup_aerase_ne _ _ _ hh0] at h2
      exact hf h0 it2 h2

/-- `removeItem` and the `removeDescendants` loop preserve the registry
invariant, and a successful `removeItem` deletes the item's `item2Info`
entry. -/
theorem removePreserve (m : TreeModelSig) : ∀ fuel,
    (∀ s item, RegInv s →
      RegInv (removeItem m s item fuel).1 ∧
      ((removeItem m s item fuel).2 = Out.ok () →
        alookup (removeItem m s item fuel).1.item2Info item = none)) ∧
    (∀ its s, RegInv s → RegInv (removeSeq m s its fuel).1) := by
  intro fuel
  induction fuel with
  | zero =>
    constructor
    · intro s item hInv
      have heq : removeItem m s item 0 = (s, Out.nofuel) := by simp [removeItem]
      rw [heq]
      exact ⟨hInv, fun hc => Out.noConfusion hc⟩
    · intro its s hInv
      cases its with
      | nil =>
        have heq : removeSeq m s [] 0 = (s, Out.ok ()) := by simp [removeSeq]
        rw [heq]; exact hInv
      | cons it rest =>
        have heq : removeSeq m s (it :: rest) 0 = (s, Out.nofuel) := by simp [removeSeq]
        rw [heq]; exact hInv
  | succ fuel ih =>
    constructor
    · intro s item hInv
      cases h0 : alookup s.item2Info item with
      | none =>
        have heq : removeItem m s item (fuel + 1) = (s, Out.crash) := by
          simp only [removeItem]
          rw [h0]
        rw [heq]
        exact ⟨hInv, fun hc => Out.noConfusion hc⟩
      | some info0 =>
        rcases hrs : removeSeq m s (info0.child2Handle.map Prod.fst) fuel with ⟨s1, o1⟩
        have hInv1 := ih.2 (info0.child2Handle.map Prod.fst) s hInv
        rw [hrs] at hInv1
        dsimp only at hInv1
        cases o1 with
        | err e =>
          have heq : removeItem m s item (fuel + 1) = (s1, Out.err e) := by
            simp only [removeItem]
            rw [h0]
            dsimp only
            rw [hrs]
          rw [heq]
          exact ⟨hInv1, fun hc => Out.noConfusion hc⟩
        | crash =>
          have heq : removeItem m s item (fuel + 1) = (s1, Out.crash) := by
            simp only [removeItem]
            rw [h0]
            dsimp only
            rw [hrs]
          rw [heq]
          exact ⟨hInv1, fun hc => Out.noConfusion hc⟩
        | nofuel =>
          have heq : removeItem m s item (fuel + 1) = (s1, Out.nofuel) := by
            simp only [removeItem]
            rw [h0]
            dsimp only
            rw [hrs]
          rw [heq]
          exact ⟨hInv1, fun hc => Out.noConfusion hc⟩
        | ok u =>
          cases hli : alookup s1.item2Info item with
          | none =>
            have heq : removeItem m s item (fuel + 1) = (s1, Out.err "invalid item") := by
              simp only [removeItem]
              rw [h0]
              dsimp only
              rw [hrs]
              dsimp only
              rw [hli]
            rw [heq]
            exact ⟨hInv1, fun hc => Out.noConfusion hc⟩
          | some info =>
            cases hpar : m.parent item with
            | none =>
              have heq : removeItem m s item (fuel + 1) =
                  ({ s1 with
                      item2Info := aerase s1.item2Info item,
                      handle2Item := aerase s1.handle2Item info.handle }, Out.ok ()) := by
                simp only [removeItem]
                rw [h0]
                dsimp only
                rw [hrs]
                dsimp only
                rw [hli]
                dsimp only
                rw [hpar]
              rw [heq]
              refine ⟨erasePair_regInv s1 item info.handle info hli rfl hInv1, ?_⟩
              intro _
              exact alookup_aerase_self _ _
            | some p =>
              cases hpp : alookup s1.item2Info p with
              | none =>
                have heq : removeItem m s item (fuel + 1) =
                    ({ s1 with
                        item2Info := aerase s1.item2Info item,
                        handle2Item := aerase s1.handle2Item info.handle },
                      Out.ok ()) := by
                  simp only [removeItem]
                  rw [h0]
                  dsimp only
                  rw [hrs]
                  dsimp only
                  rw [hli]
                  dsimp only
                  rw [hpar]
                  dsimp only
                  rw [hpp]
                rw [heq]
                refine ⟨erasePair_regInv s1 item info.handle info hli rfl hInv1, ?_⟩
                intro _
                exact alookup_aerase_self _ _
              | some pinfo =>
                set s2 : TvState := { s1 with
                    item2Info := aset s1.item2Info p
                      ({ pinfo with
                          child2Handle := aerase pinfo.child2Handle item }) }
                  with hs2
                have heq : removeItem m s item (fuel + 1) =
                    ({ s2 with
                        item2Info := aerase s2.item2Info item,
                        handle2Item := aerase s2.handle2Item info.handle },
                      Out.ok ()) := by
                  simp only [removeItem]
                  rw [h0]
                  dsimp only
                  rw [hrs]
                  dsimp only
                  rw [hli]
                  dsimp only
                  rw [hpar]
                  dsimp only
                  rw [hpp]
                have hInv2 : RegInv s2 :=
                  childMapSet_regInv s1 p pinfo _ hpp hInv1
                have hs2it : ∃ info2, alookup s2.item2Info item = some info2 ∧
                    info2.handle = info.handle := by
                  by_cases hip : item = p
                  · refine ⟨{ pinfo with child2Handle := aerase pinfo.child2Handle item },
                      by rw [hs2, hip]; exact alookup_aset_self _ _ _, ?_⟩
                    rw [← hip] at hpp
                    rw [hli] at hpp
                    injection hpp with he
                    rw [he]
                  · refine ⟨info, ?_, rfl⟩
                    rw [hs2]
                    dsimp only
                    rw [alookup_aset_ne _ _ _ _ hip]
                    exact hli
                obtain ⟨info2, hi2, hih⟩ := hs2it
                rw [heq]
                refine ⟨erasePair_regInv s2 item info.handle info2 hi2 hih hInv2, ?_⟩
                intro _
                exact alookup_aerase_self _ _
    · intro its s hInv
      cases its with
      | nil =>
        have heq : removeSeq m s [] (fuel + 1) = (s, Out.ok ()) := by simp [removeSeq]
        rw [heq]; exact hInv
      | cons it rest =>
        rcases hri : removeItem m s it fuel with ⟨s1, o1⟩
        have hInv1 := ((ih.1) s it hInv).1
        rw [hri] at hInv1
        dsimp only at hInv1
        cases o1 with
        | ok u =>
          have heq : removeSeq m s (it :: rest) (fuel + 1) = removeSeq m s1 rest fuel := by
            simp only [removeSeq]
            rw [hri]
          rw [heq]
          exact ih.2 rest s1 hInv1
        | err e =>
          have heq : removeSeq m s (it :: rest) (fuel + 1) = (s1, Out.err e) := by
            simp only [removeSeq]
            rw [hri]
          rw [heq]; exact hInv1
        | crash =>
          have heq : removeSeq m s (it :: rest) (fuel + 1) = (s1, Out.crash) := by
            simp only [removeSeq]
            rw [hri]
          rw [heq]; exact hInv1
        | nofuel =>
          have heq : removeSeq m s (it :: rest) (fuel + 1) = (s1, Out.nofuel) := by
            simp only [removeSeq]
            rw [hri]
          rw [heq]; exact hInv1

/-- C5: the two registries form a bidirectional map that the engine
operations keep consistent: `clearItems` (re)establishes the invariant on
empty registries; an insertion pass over fresh, duplicate-free subtree
items preserves it and, when the item's parent resolves, creates the
item's entries in both registries together; `removeItem` preserves it,
and a successful removal destroys the item's entries in both registries
together. -/
theorem C5_registry_invariant (m : TreeModelSig) (s : TvState) (item fuel hA : Nat) :
    RegInv (clearItems s).1 ∧
    (RegInv s →
      (subtreeItems m s.lazyPopulation item fuel).Nodup →
      (∀ x ∈ subtreeItems m s.lazyPopulation item fuel,
        alookup s.item2Info x = none) →
      RegInv (insertItemAfter m s item hA fuel).1 ∧
      (∀ g, fuel = g + 1 → parentOkB m s item = true →
        ∃ infoI,
          alookup (insertItemAfter m s item hA fuel).1.item2Info item = some infoI ∧
          alookup (insertItemAfter m s item hA fuel).1.handle2Item infoI.handle
            = some item)) ∧
    (RegInv s →
      RegInv (removeItem m s item fuel).1 ∧
      ((removeItem m s item fuel).2 = Out.ok () →
        alookup (removeItem m s item fuel).1.item2Info item = none ∧
        ∀ h0, alookup (removeItem m s item fuel).1.handle2Item h0 ≠ some item)) := by
  refine ⟨?_, ?_, ?_⟩
  · refine ⟨⟨?_, ?_⟩, ?_⟩ <;> intro a b h <;> exact Option.noConfusion h
  · intro hInv hnd hfr
    obtain ⟨hInsA, hreg⟩ := (insertPreserve m fuel).1 s item hA hInv hnd hfr
    refine ⟨hInsA.inv, ?_⟩
    intro g hg hok
    obtain ⟨infoI, h1, h2, h3⟩ := hreg g hg hok
    exact ⟨infoI, h1, by rw [h2]; exact h3⟩
  · intro hInv
    obtain ⟨hInvR, hdel⟩ := (removePreserve m fuel).1 s item hInv
    refine ⟨hInvR, ?_⟩
    intro hok
    have hnone := hdel hok
    refine ⟨hnone, ?_⟩
    intro h0 hcon
    obtain ⟨info, hi, _⟩ := hInvR.1.2 h0 item hcon
    rw [hnone] at hi
    exact Option.noConfusion hi

/-- Concrete check of C5 on the scenario model from the empty post-attach
state: the registry invariant holds (the hypotheses of the insertion and
removal conjuncts being discharged on the concrete subtree). -/
theorem C5_registry_invariant_witness :
    RegInv (insertItemAfter mT (s0 false) 0 TVI_FIRST 5).1 ∧
    RegInv (removeItem mT (s0 false) 0 5).1 := by
  have hInv : RegInv (s0 false) := by
    refine ⟨⟨?_, ?_⟩, ?_⟩ <;> intro a b h <;> exact Option.noConfusion h
  have hC := C5_registry_invariant mT (s0 false) 0 5 TVI_FIRST
  exact ⟨(hC.2.1 hInv (by decide) (fun x hx => rfl)).1, (hC.2.2 hInv).1⟩


/-- Lookup in a one-entry association list. -/
theorem alookup_singleton {α : Type} (k : Nat) (v : α) (q : Nat) :
    alookup [(k, v)] q = if k = q then some v else none := by
  simp [alookup]

/-- C9: realizing an item through the model's `ItemInserted` event path
creates its entry in both registries, while its realized parent's
registry entry — in particular its realized-children map — is untouched
and still lacks the new item; only the `insertChildren` path populates a
parent's `child2Handle`. -/
theorem C9_item_inserted_frame (m : TreeModelSig) (s : TvState)
    (item p fuel hA : Nat) (infop : ItemInfo)
    (hInv : RegInv s)
    (hnd : (subtreeItems m s.lazyPopulation item (fuel + 1)).Nodup)
    (hfr : ∀ x ∈ subtreeItems m s.lazyPopulation item (fuel + 1),
      alookup s.item2Info x = none)
    (hanch : computeInsertAnchor m s item = Out.ok hA)
    (hpar : m.parent item = some p)
    (hp : alookup s.item2Info p = some infop)
    (hpni : p ∉ subtreeItems m s.lazyPopulation item (fuel + 1))
    (hni : alookup infop.child2Handle item = none) :
    ∃ infoI,
      alookup (itemInsertedHandler m s item (fuel + 1)).1.item2Info item
        = some infoI ∧
      alookup (itemInsertedHandler m s item (fuel + 1)).1.handle2Item infoI.handle
        = some item ∧
      alookup (itemInsertedHandler m s item (fuel + 1)).1.item2Info p = some infop ∧
      alookup infop.child2Handle item = none := by
  have hres : (itemInsertedHandler m s item (fuel + 1)).1
      = (insertItemAfter m s item hA (fuel + 1)).1 := by
    simp only [itemInsertedHandler]
    rw [hanch]
    dsimp only
    generalize insertItemAfter m s item hA (fuel + 1) = r
    obtain ⟨s1, o⟩ := r
    cases o <;> rfl
  obtain ⟨hInsA, hreg⟩ := (insertPreserve m (fuel + 1)).1 s item hA hInv hnd hfr
  have hpok : parentOkB m s item = true := by
    unfold parentOkB
    rw [hpar]
    dsimp only
    rw [hp]
    rfl
  obtain ⟨infoI, h1, h2, h3⟩ := hreg fuel rfl hpok
  refine ⟨infoI, ?_, ?_, ?_, hni⟩
  · rw [hres]
    exact h1
  · rw [hres, h2]
    exact h3
  · rw [hres]
    rw [hInsA.confine p hpni (by simp)]
    exact hp

/-- Concrete check of C9: after the lazy reset of the scenario model has
realized only root R(0), the `ItemInserted` path for A(1) registers A in
both registries while R keeps its registry entry with the empty
realized-children map. -/
theorem C9_item_inserted_frame_witness :
    ∃ infoI,
      alookup (itemInsertedHandler mL sW 1 (4 + 1)).1.item2Info 1 = some infoI ∧
      alookup (itemInsertedHandler mL sW 1 (4 + 1)).1.handle2Item infoI.handle
        = some 1 ∧
      alookup (itemInsertedHandler mL sW 1 (4 + 1)).1.item2Info 0
        = some { handle := 1, child2Handle := [] } ∧
      alookup ({ handle := 1, child2Handle := [] } : ItemInfo).child2Handle 1
        = none := by
  have hsw1 : sW.item2Info = [(0, { handle := 1, child2Handle := [] })] := rfl
  have hsw2 : sW.handle2Item = [(1, 0)] := rfl
  have hl1 : ∀ it, alookup sW.item2Info it =
      if 0 = it then some { handle := 1, child2Handle := [] } else none := by
    intro it
    rw [hsw1]
    exact alookup_singleton _ _ _
  have hl2 : ∀ h0, alookup sW.handle2Item h0 = if 1 = h0 then some 0 else none := by
    intro h0
    rw [hsw2]
    exact alookup_singleton _ _ _
  have hInv : RegInv sW := by
    refine ⟨⟨?_, ?_⟩, ?_⟩
    · intro it info h
      rw [hl1] at h
      by_cases h0 : 0 = it
      · rw [if_pos h0] at h
        injection h with he
        subst h0
        rw [← he]
        rfl
      · rw [if_neg h0] at h
        exact Option.noConfusion h
    · intro h0 it h
      rw [hl2] at h
      by_cases hh : 1 = h0
      · rw [if_pos hh] at h
        injection h with he
        subst he
        exact ⟨{ handle := 1, child2Handle := [] }, rfl, hh⟩
      · rw [if_neg hh] at h
        exact Option.noConfusion h
    · intro h0 it h
      rw [hl2] at h
      by_cases hh : 1 = h0
      · have hn : sW.nextHandle = 2 := rfl
        rw [hn]
        omega
      · rw [if_neg hh] at h
        exact Option.noConfusion h
  exact C9_item_inserted_frame mL sW 1 0 4 TVI_FIRST
    { handle := 1, child2Handle := [] } hInv (by decide) (by decide) rfl rfl rfl
    (by decide) rfl


/-- Lookup through the spine projection of the item registry. -/
theorem alookup_spine (l : List (Nat × ItemInfo)) (x : Nat) :
    alookup (l.map (fun p => (p.1, p.2.child2Handle.map Prod.fst))) x
      = (alookup l x).map (fun i => i.child2Handle.map Prod.fst) := by
  induction l with
  | nil => simp [alookup]
  | cons q rest ih =>
    by_cases hq : q.1 = x
    · simp [alookup, hq]
    · simp [alookup, hq, ih]

/-- The spine projection commutes with erasing a key. -/
theorem spine_aerase (l : List (Nat × ItemInfo)) (k : Nat) :
    (aerase l k).map (fun p => (p.1, p.2.child2Handle.map Prod.fst))
      = aerase (l.map (fun p => (p.1, p.2.child2Handle.map Prod.fst))) k := by
  induction l with
  | nil => rfl
  | cons q rest ih =>
    by_cases hq : q.1 = k
    · have h1 : aerase (q :: rest) k = aerase rest k := by
        simp [aerase, List.filter_cons, hq]
      have h2 : aerase ((q.1, q.2.child2Handle.map Prod.fst) ::
            rest.map (fun p => (p.1, p.2.child2Handle.map Prod.fst))) k
          = aerase (rest.map (fun p => (p.1, p.2.child2Handle.map Prod.fst))) k := by
        simp [aerase, List.filter_cons, hq]
      rw [h1, List.map_cons, h2]
      exact ih
    · have h1 : aerase (q :: rest) k = q :: aerase rest k := by
        simp [aerase, List.filter_cons, hq]
      have h2 : aerase ((q.1, q.2.child2Handle.map Prod.fst) ::
            rest.map (fun p => (p.1, p.2.child2Handle.map Prod.fst))) k
          = (q.1, q.2.child2Handle.map Prod.fst) ::
            aerase (rest.map (fun p => (p.1, p.2.child2Handle.map Prod.fst))) k := by
        simp [aerase, List.filter_cons, hq]
      rw [h1, List.map_cons, List.map_cons, h2, ih]

/-- The spine projection commutes with a registry write. -/
theorem spine_aset (l : List (Nat × ItemInfo)) (k : Nat) (i : ItemInfo) :
    (aset l k i).map (fun p => (p.1, p.2.child2Handle.map Prod.fst))
      = aset (l.map (fun p => (p.1, p.2.child2Handle.map Prod.fst))) k
          (i.child2Handle.map Prod.fst) := by
  unfold aset
  simp only [List.map_cons]
  rw [spine_aerase]

/-- The key list of an erased realized-children map is a function of the
key list alone. -/
theorem keys_aerase (l : List (Nat × Nat)) (k : Nat) :
    (aerase l k).map Prod.fst = (l.map Prod.fst).filter (fun x => x ≠ k) := by
  induction l with
  | nil => rfl
  | cons q rest ih =>
    by_cases hq : q.1 = k
    · have h1 : aerase (q :: rest) k = aerase rest k := by
        simp [aerase, List.filter_cons, hq]
      rw [h1, List.map_cons, List.filter_cons]
      simp [hq, ih]
    · have h1 : aerase (q :: rest) k = q :: aerase rest k := by
        simp [aerase, List.filter_cons, hq]
      rw [h1, List.map_cons, List.map_cons, List.filter_cons]
      simp [hq, ih]

/-- The key list of an updated realized-children map is a function of the
key list alone. -/
theorem keys_aset (l : List (Nat × Nat)) (k v : Nat) :
    (aset l k v).map Prod.fst = k :: (l.map Prod.fst).filter (fun x => x ≠ k) := by
  unfold aset
  simp [keys_aerase]

/-- Spine-equal registries agree on lookups up to the spine projection. -/
theorem spine_lookup (s t : TvState) (hsp : spineOf s = spineOf t) (x : Nat) :
    (alookup s.item2Info x).map (fun i => i.child2Handle.map Prod.fst)
      = (alookup t.item2Info x).map (fun i => i.child2Handle.map Prod.fst) := by
  rw [← alookup_spine, ← alookup_spine]
  unfold spineOf at hsp
  rw [hsp]

/-- Spine-equal registries realize the same items. -/
theorem spine_isNone (s t : TvState) (hsp : spineOf s = spineOf t) (x : Nat) :
    (alookup s.item2Info x).isNone = (alookup t.item2Info x).isNone := by
  have hl := spine_lookup s t hsp x
  cases hs : alookup s.item2Info x <;> cases ht : alookup t.item2Info x <;>
    rw [hs, ht] at hl <;> simp_all

/-- Recording a child handle moves spine-equal states to spine-equal
states (whatever handle value each side records). -/
theorem addChildHandle_spine (s t : TvState) (hsp : spineOf s = spineOf t)
    (parent c h h2 : Nat) :
    spineOf (addChildHandle s parent c h) = spineOf (addChildHandle t parent c h2) := by
  have hl := spine_lookup s t hsp parent
  unfold addChildHandle
  cases hs : alookup s.item2Info parent with
  | none =>
    cases ht : alookup t.item2Info parent with
    | none => exact hsp
    | some infot =>
      rw [hs, ht] at hl
      simp at hl
  | some infos =>
    cases ht : alookup t.item2Info parent with
    | none =>
      rw [hs, ht] at hl
      simp at hl
    | some infot =>
      rw [hs, ht] at hl
      simp only [Option.map_some'] at hl
      replace hl := Option.some.inj hl
      unfold spineOf
      dsimp only
      rw [spine_aset, spine_aset]
      unfold spineOf at hsp
      rw [hsp]
      have hv : (aset infos.child2Handle c h).map Prod.fst
          = (aset infot.child2Handle c h2).map Prod.fst := by
        rw [keys_aset, keys_aset, hl]
      dsimp only
      rw [hv]

/-- The insertion pass is registry-shape deterministic: from spine-equal
states with equal lazy flags, inserting the same item (whatever the
anchors and handle values) yields spine-equal states, preserves the lazy
flag, and takes the same outcome constructor. -/
theorem insertLockstep (m : TreeModelSig) : ∀ fuel,
    (∀ s t item hA hA2, spineOf s = spineOf t →
      s.lazyPopulation = t.lazyPopulation →
      spineOf (insertItemAfter m s item hA fuel).1
          = spineOf (insertItemAfter m t item hA2 fuel).1 ∧
      (insertItemAfter m s item hA fuel).1.lazyPopulation = s.lazyPopulation ∧
      (insertItemAfter m t item hA2 fuel).1.lazyPopulation = t.lazyPopulation ∧
      outShape (insertItemAfter m s item hA fuel).2
        (insertItemAfter m t item hA2 fuel).2) ∧
    (∀ cs s t parent, spineOf s = spineOf t →
      s.lazyPopulation = t.lazyPopulation →
      spineOf (insertChildrenAux m s parent true cs fuel).1
          = spineOf (insertChildrenAux m t parent true cs fuel).1 ∧
      (insertChildrenAux m s parent true cs fuel).1.lazyPopulation
          = s.lazyPopulation ∧
      (insertChildrenAux m t parent true cs fuel).1.lazyPopulation
          = t.lazyPopulation ∧
      outShape (insertChildrenAux m s parent true cs fuel).2
        (insertChildrenAux m t parent true cs fuel).2) := by
  intro fuel
  induction fuel with
  | zero =>
    constructor
    · intro s t item hA hA2 hsp hlz
      have he1 : insertItemAfter m s item hA 0 = (s, Out.nofuel) := by
        simp [insertItemAfter]
      have he2 : insertItemAfter m t item hA2 0 = (t, Out.nofuel) := by
        simp [insertItemAfter]
      rw [he1, he2]
      exact ⟨hsp, rfl, rfl, by simp [outShape]⟩
    · intro cs s t parent hsp hlz
      cases cs with
      | nil =>
        have he1 : insertChildrenAux m s parent true [] 0 = (s, Out.ok ()) := by
          simp [insertChildrenAux]
        have he2 : insertChildrenAux m t parent true [] 0 = (t, Out.ok ()) := by
          simp [insertChildrenAux]
        rw [he1, he2]
        exact ⟨hsp, rfl, rfl, by simp [outShape]⟩
      | cons c rest =>
        have he1 : insertChildrenAux m s parent true (c :: rest) 0
            = (s, Out.nofuel) := by
          simp [insertChildrenAux]
        have he2 : insertChildrenAux m t parent true (c :: rest) 0
            = (t, Out.nofuel) := by
          simp [insertChildrenAux]
        rw [he1, he2]
        exact ⟨hsp, rfl, rfl, by simp [outShape]⟩
  | succ fuel ih =>
    constructor
    · intro s t item hA hA2 hsp hlz
      have hbadEq : (match m.parent item with
          | some p => (alookup s.item2Info p).isNone
          | none => false)
          = (match m.parent item with
          | some p => (alookup t.item2Info p).isNone
          | none => false) := by
        cases m.parent item with
        | none => rfl
        | some p => exact spine_isNone s t hsp p
      by_cases hbad : (match m.parent item with
          | some p => (alookup s.item2Info p).isNone
          | none => false) = true
      · have hbadT : (match m.parent item with
            | some p => (alookup t.item2Info p).isNone
            | none => false) = true := by
          rw [← hbadEq]
          exact hbad
        have he1 : insertItemAfter m s item hA (fuel + 1)
            = (s, Out.err "invalid parent") := by
          simp only [insertItemAfter]
          rw [if_pos hbad]
        have he2 : insertItemAfter m t item hA2 (fuel + 1)
            = (t, Out.err "invalid parent") := by
          simp only [insertItemAfter]
          rw [if_pos hbadT]
        rw [he1, he2]
        exact ⟨hsp, rfl, rfl, by simp [outShape]⟩
      · have hbadT : ¬((match m.parent item with
            | some p => (alookup t.item2Info p).isNone
            | none => false) = true) := by
          rw [← hbadEq]
          exact hbad
        set s1 : TvState := { s with
            nextHandle := s.nextHandle + 1,
            item2Info := aset s.item2Info item
              ({ handle := s.nextHandle, child2Handle := [] }),
            handle2Item := aset s.handle2Item s.nextHandle item,
            nativeChecked := aset s.nativeChecked s.nextHandle
              (m.checkable item && s.checked item) } with hs1
        set t1 : TvState := { t with
            nextHandle := t.nextHandle + 1,
            item2Info := aset t.item2Info item
              ({ handle := t.nextHandle, child2Handle := [] }),
            handle2Item := aset t.handle2Item t.nextHandle item,
            nativeChecked := aset t.nativeChecked t.nextHandle
              (m.checkable item && t.checked item) } with ht1
        have hs1lz : s1.lazyPopulation = s.lazyPopulation := by rw [hs1]
        have ht1lz : t1.lazyPopulation = t.lazyPopulation := by rw [ht1]
        have hsp1 : spineOf s1 = spineOf t1 := by
          rw [hs1, ht1]
          unfold spineOf
          dsimp only
          rw [spine_aset, spine_aset]
          unfold spineOf at hsp
          rw [hsp]
        by_cases hlzs : s.lazyPopulation = true
        · have hlzt : t.lazyPopulation = true := by
            rw [← hlz]
            exact hlzs
          have he1 : insertItemAfter m s item hA (fuel + 1)
              = (s1, Out.ok s.nextHandle) := by
            simp only [insertItemAfter]
            rw [if_neg hbad, if_pos hlzs, hs1]
          have he2 : insertItemAfter m t item hA2 (fuel + 1)
              = (t1, Out.ok t.nextHandle) := by
            simp only [insertItemAfter]
            rw [if_neg hbadT, if_pos hlzt, ht1]
          rw [he1, he2]
          exact ⟨hsp1, hs1lz, ht1lz, by simp [outShape]⟩
        · have hlzf : s.lazyPopulation = false := by
            cases h : s.lazyPopulation
            · rfl
            · exact absurd h hlzs
          have hlztf : t.lazyPopulation = false := by
            rw [← hlz]
            exact hlzf
          obtain ⟨hspA, hlzA1, hlzA2, hoA⟩ :=
            ih.2 ((m.children item).reverse) s1 t1 item hsp1
              (by rw [hs1lz, ht1lz, hlz])
          rcases ha : insertChildrenAux m s1 item true
              ((m.children item).reverse) fuel with ⟨s2, o2⟩
          rcases hb : insertChildrenAux m t1 item true
              ((m.children item).reverse) fuel with ⟨t2, p2⟩
          rw [ha] at hspA hlzA1 hoA
          rw [hb] at hspA hlzA2 hoA
          dsimp only at hspA hlzA1 hlzA2 hoA
          cases o2 <;> cases p2 <;> simp only [outShape] at hoA
          · have he1 : insertItemAfter m s item hA (fuel + 1)
                = (s2, Out.ok s.nextHandle) := by
              simp only [insertItemAfter]
              rw [if_neg hbad, if_neg (by simp [hlzf]), ← hs1, ha]
            have he2 : insertItemAfter m t item hA2 (fuel + 1)
                = (t2, Out.ok t.nextHandle) := by
              simp only [insertItemAfter]
              rw [if_neg hbadT, if_neg (by simp [hlztf]), ← ht1, hb]
            rw [he1, he2]
            exact ⟨hspA, hlzA1.trans hs1lz, hlzA2.trans ht1lz, by simp [outShape]⟩
          · rename_i e f
            subst hoA
            have he1 : insertItemAfter m s item hA (fuel + 1) = (s2, Out.err e) := by
              simp only [insertItemAfter]
              rw [if_neg hbad, if_neg (by simp [hlzf]), ← hs1, ha]
            have he2 : insertItemAfter m t item hA2 (fuel + 1) = (t2, Out.err e) := by
              simp only [insertItemAfter]
              rw [if_neg hbadT, if_neg (by simp [hlztf]), ← ht1, hb]
            rw [he1, he2]
            exact ⟨hspA, hlzA1.trans hs1lz, hlzA2.trans ht1lz, by simp [outShape]⟩
          · have he1 : insertItemAfter m s item hA (fuel + 1) = (s2, Out.crash) := by
              simp only [insertItemAfter]
              rw [if_neg hbad, if_neg (by simp [hlzf]), ← hs1, ha]
            have he2 : insertItemAfter m t item hA2 (fuel + 1) = (t2, Out.crash) := by
              simp only [insertItemAfter]
              rw [if_neg hbadT, if_neg (by simp [hlztf]), ← ht1, hb]
            rw [he1, he2]
            exact ⟨hspA, hlzA1.trans hs1lz, hlzA2.trans ht1lz, by simp [outShape]⟩
          · have he1 : insertItemAfter m s item hA (fuel + 1) = (s2, Out.nofuel) := by
              simp only [insertItemAfter]
              rw [if_neg hbad, if_neg (by simp [hlzf]), ← hs1, ha]
            have he2 : insertItemAfter m t item hA2 (fuel + 1) = (t2, Out.nofuel) := by
              simp only [insertItemAfter]
              rw [if_neg hbadT, if_neg (by simp [hlztf]), ← ht1, hb]
            rw [he1, he2]
            exact ⟨hspA, hlzA1.trans hs1lz, hlzA2.trans ht1lz, by simp [outShape]⟩
    · intro cs s t parent hsp hlz
      cases cs with
      | nil =>
        have he1 : insertChildrenAux m s parent true [] (fuel + 1)
            = (s, Out.ok ()) := by
          simp [insertChildrenAux]
        have he2 : insertChildrenAux m t parent true [] (fuel + 1)
            = (t, Out.ok ()) := by
          simp [insertChildrenAux]
        rw [he1, he2]
        exact ⟨hsp, rfl, rfl, by simp [outShape]⟩
      | cons c rest =>
        obtain ⟨hspC, hlzC1, hlzC2, hoC⟩ :=
          ih.1 s t c TVI_FIRST TVI_FIRST hsp hlz
        rcases ha : insertItemAfter m s c TVI_FIRST fuel with ⟨s1, o1⟩
        rcases hb : insertItemAfter m t c TVI_FIRST fuel with ⟨t1, p1⟩
        rw [ha] at hspC hlzC1 hoC
        rw [hb] at hspC hlzC2 hoC
        dsimp only at hspC hlzC1 hlzC2 hoC
        cases o1 <;> cases p1 <;> simp only [outShape] at hoC
        · rename_i hv hv2
          have he1 : insertChildrenAux m s parent true (c :: rest) (fuel + 1)
              = insertChildrenAux m (addChildHandle s1 parent c hv) parent true
                  rest fuel := by
            simp only [insertChildrenAux]
            rw [ha]
            simp
          have he2 : insertChildrenAux m t parent true (c :: rest) (fuel + 1)
              = insertChildrenAux m (addChildHandle t1 parent c hv2) parent true
                  rest fuel := by
            simp only [insertChildrenAux]
            rw [hb]
            simp
          have hfrs := addChildHandle_frame s1 parent c hv
          have hfrt := addChildHandle_frame t1 parent c hv2
          obtain ⟨hspR, hlzR1, hlzR2, hoR⟩ :=
            ih.2 rest (addChildHandle s1 parent c hv) (addChildHandle t1 parent c hv2)
              parent (addChildHandle_spine s1 t1 hspC parent c hv hv2)
              (by rw [hfrs.2.2, hfrt.2.2, hlzC1, hlzC2, hlz])
          rw [he1, he2]
          refine ⟨hspR, ?_, ?_, hoR⟩
          · rw [hlzR1, hfrs.2.2, hlzC1]
          · rw [hlzR2, hfrt.2.2, hlzC2]
        · rename_i e f
          subst hoC
          have he1 : insertChildrenAux m s parent true (c :: rest) (fuel + 1)
              = (s1, Out.err e) := by
            simp only [insertChildrenAux]
            rw [ha]
          have he2 : insertChildrenAux m t parent true (c :: rest) (fuel + 1)
              = (t1, Out.err e) := by
            simp only [insertChildrenAux]
            rw [hb]
          rw [he1, he2]
          exact ⟨hspC, hlzC1, hlzC2, by simp [outShape]⟩
        · have he1 : insertChildrenAux m s parent true (c :: rest) (fuel + 1)
              = (s1, Out.crash) := by
            simp only [insertChildrenAux]
            rw [ha]
          have he2 : insertChildrenAux m t parent true (c :: rest) (fuel + 1)
              = (t1, Out.crash) := by
            simp only [insertChildrenAux]
            rw [hb]
          rw [he1, he2]
          exact ⟨hspC, hlzC1, hlzC2, by simp [outShape]⟩
        · have he1 : insertChildrenAux m s parent true (c :: rest) (fuel + 1)
              = (s1, Out.nofuel) := by
            simp only [insertChildrenAux]
            rw [ha]
          have he2 : insertChildrenAux m t parent true (c :: rest) (fuel + 1)
              = (t1, Out.nofuel) := by
            simp only [insertChildrenAux]
            rw [hb]
          rw [he1, he2]
          exact ⟨hspC, hlzC1, hlzC2, by simp [outShape]⟩

/-- The root-insertion loop is registry-shape deterministic: from
spine-equal states with equal lazy flags it yields spine-equal states and
preserves the lazy flag. -/
theorem rootsLockstep (m : TreeModelSig) (fuel : Nat) :
    ∀ rs s t, spineOf s = spineOf t → s.lazyPopulation = t.lazyPopulation →
      spineOf (insertRootsAux m s rs fuel).1 = spineOf (insertRootsAux m t rs fuel).1 ∧
      (insertRootsAux m s rs fuel).1.lazyPopulation = s.lazyPopulation ∧
      (insertRootsAux m t rs fuel).1.lazyPopulation = t.lazyPopulation := by
  intro rs
  induction rs with
  | nil =>
    intro s t hsp hlz
    have he1 : insertRootsAux m s [] fuel = (s, Out.ok ()) := by
      simp [insertRootsAux]
    have he2 : insertRootsAux m t [] fuel = (t, Out.ok ()) := by
      simp [insertRootsAux]
    rw [he1, he2]
    exact ⟨hsp, rfl, rfl⟩
  | cons r rest ih =>
    intro s t hsp hlz
    obtain ⟨hspR, hlzR1, hlzR2, hoR⟩ :=
      (insertLockstep m fuel).1 s t r TVI_FIRST TVI_FIRST hsp hlz
    rcases ha : insertItemAfter m s r TVI_FIRST fuel with ⟨s1, o1⟩
    rcases hb : insertItemAfter m t r TVI_FIRST fuel with ⟨t1, p1⟩
    rw [ha] at hspR hlzR1 hoR
    rw [hb] at hspR hlzR2 hoR
    dsimp only at hspR hlzR1 hlzR2 hoR
    cases o1 <;> cases p1 <;> simp only [outShape] at hoR
    · have he1 : insertRootsAux m s (r :: rest) fuel
          = insertRootsAux m s1 rest fuel := by
        simp only [insertRootsAux, insertItem]
        rw [ha]
      have he2 : insertRootsAux m t (r :: rest) fuel
          = insertRootsAux m t1 rest fuel := by
        simp only [insertRootsAux, insertItem]
        rw [hb]
      obtain ⟨hspT, hlzT1, hlzT2⟩ :=
        ih s1 t1 hspR (by rw [hlzR1, hlzR2, hlz])
      rw [he1, he2]
      exact ⟨hspT, hlzT1.trans hlzR1, hlzT2.trans hlzR2⟩
    · rename_i e f
      subst hoR
      have he1 : insertRootsAux m s (r :: rest) fuel = (s1, Out.err e) := by
        simp only [insertRootsAux, insertItem]
        rw [ha]
      have he2 : insertRootsAux m t (r :: rest) fuel = (t1, Out.err e) := by
        simp only [insertRootsAux, insertItem]
        rw [hb]
      rw [he1, he2]
      exact ⟨hspR, hlzR1, hlzR2⟩
    · have he1 : insertRootsAux m s (r :: rest) fuel = (s1, Out.crash) := by
        simp only [insertRootsAux, insertItem]
        rw [ha]
      have he2 : insertRootsAux m t (r :: rest) fuel = (t1, Out.crash) := by
        simp only [insertRootsAux, insertItem]
        rw [hb]
      rw [he1, he2]
      exact ⟨hspR, hlzR1, hlzR2⟩
    · have he1 : insertRootsAux m s (r :: rest) fuel = (s1, Out.nofuel) := by
        simp only [insertRootsAux, insertItem]
        rw [ha]
      have he2 : insertRootsAux m t (r :: rest) fuel = (t1, Out.nofuel) := by
        simp only [insertRootsAux, insertItem]
        rw [hb]
      rw [he1, he2]
      exact ⟨hspR, hlzR1, hlzR2⟩

/-- C8: resetting the view twice in a row against the unchanged model
yields identical registry contents up to handle values: after the second
reset the same item set is mapped with the same parent/child shape (and
the same lazy flag) as after the first. -/
theorem C8_reset_idempotent (m : TreeModelSig) (s : TvState) (fuel : Nat) :
    EqShape (resetItems m (resetItems m s fuel).1 fuel).1 (resetItems m s fuel).1 := by
  have hre : ∀ x : TvState, resetItems m x fuel
      = insertRootsAux m { x with item2Info := [], handle2Item := [] }
          m.roots.reverse fuel := by
    intro x
    simp [resetItems, clearItems]
  have h1 := hre s
  have h2 := hre (resetItems m s fuel).1
  have hlzr1 : (resetItems m s fuel).1.lazyPopulation = s.lazyPopulation := by
    rw [h1]
    exact (rootsLockstep m fuel m.roots.reverse
      { s with item2Info := [], handle2Item := [] }
      { s with item2Info := [], handle2Item := [] } rfl rfl).2.1
  obtain ⟨hsp, hlzA, hlzB⟩ := rootsLockstep m fuel m.roots.reverse
    { (resetItems m s fuel).1 with item2Info := [], handle2Item := [] }
    { s with item2Info := [], handle2Item := [] } rfl hlzr1
  constructor
  · rw [h2]
    refine hsp.trans ?_
    rw [← h1]
  · rw [h2]
    exact hlzA

end Walk
